import Mathlib

/-!
Verification of the nebula-siwi-pyg subgraph sampling engine, path discovery
algorithm and feature-store facade, against a shallow embedding of
`src/siwi/graph_backend/subgraph_sampler.py`, `src/siwi/mvp_qa_system.py`
and `src/siwi/graph_backend/remote_backend.py`.

Python dicts are modelled as association lists (insertion-ordered, first
occurrence wins on lookup, in-place overwrite on assignment), Python sets of
strings as duplicate-free lists in insertion order, and torch integer index
tensors of shape `[2, E]` as `List (Nat × Nat)` of their columns.  The remote
NebulaGraph session is modelled as an `Adapter` record of response functions:
quantifying over all adapters covers every behaviour of the remote side.
-/

set_option autoImplicit false

namespace NebulaSiwi

/-! ### Association-list helpers (Python `dict` / `set` semantics) -/

/-- `d[key]` lookup returning `none` when the key is absent (`key in d` test /
`d.get(key)`).  First occurrence wins, matching a duplicate-free dict. -/
def alookup {α β : Type} [DecidableEq α] : List (α × β) → α → Option β
  | [], _ => none
  | (k, v) :: rest, key => if k = key then some v else alookup rest key

/-- `d[key] = v` dict assignment: overwrite in place if present, else append
(Python dicts preserve insertion order). -/
def aset {α β : Type} [DecidableEq α] : List (α × β) → α → β → List (α × β)
  | [], key, v => [(key, v)]
  | (k, w) :: rest, key, v =>
    if k = key then (k, v) :: rest else (k, w) :: aset rest key v

/-- `del d[key]`: remove the first binding of `key`. -/
def adel {α β : Type} [DecidableEq α] : List (α × β) → α → List (α × β)
  | [], _ => []
  | (k, w) :: rest, key => if k = key then rest else (k, w) :: adel rest key

/-- Python `set.add` for string sets kept as duplicate-free lists in insertion
order. -/
def addToSet (s : List String) (v : String) : List String :=
  if v ∈ s then s else s ++ [v]

@[simp] theorem alookup_nil {α β : Type} [DecidableEq α] (key : α) :
    alookup ([] : List (α × β)) key = none := rfl

theorem alookup_cons {α β : Type} [DecidableEq α] (k : α) (v : β)
    (rest : List (α × β)) (key : α) :
    alookup ((k, v) :: rest) key =
      if k = key then some v else alookup rest key := rfl

theorem alookup_append_single_self {α β : Type} [DecidableEq α]
    (l : List (α × β)) (key : α) (v : β) (h : alookup l key = none) :
    alookup (l ++ [(key, v)]) key = some v := by
  induction l with
  | nil => simp [alookup]
  | cons p rest ih =>
    obtain ⟨k, w⟩ := p
    by_cases hk : k = key
    · simp [alookup, hk] at h
    · simp only [List.cons_append, alookup, hk, if_false]
      exact ih (by simpa [alookup, hk] using h)

theorem alookup_append_single_ne {α β : Type} [DecidableEq α]
    (l : List (α × β)) (k' : α) (v : β) (key : α) (hne : k' ≠ key) :
    alookup (l ++ [(k', v)]) key = alookup l key := by
  induction l with
  | nil => simp [alookup, hne]
  | cons p rest ih =>
    obtain ⟨k, w⟩ := p
    by_cases hk : k = key
    · simp [alookup, hk]
    · simp [alookup, hk, ih]

/-! ### ID Registry

Embedding of the `_vid_to_idx_map` / `_idx_to_vid_map` pair of
`SubgraphSampler` together with `_get_vid_idx`
(`subgraph_sampler.py`, lines 197–206). -/

structure Registry where
  vidToIdx : List (String × Nat)
  idxToVid : List String
  deriving Repr, DecidableEq

def Registry.empty : Registry := ⟨[], []⟩

/-- `SubgraphSampler._get_vid_idx`: return the cached index of `vid`, or
assign the next sequential index (`len(self._idx_to_vid_map)`) and record the
mapping in both directions. -/
def getVidIdx (reg : Registry) (vid : String) : Nat × Registry :=
  match alookup reg.vidToIdx vid with
  | some idx => (idx, reg)
  | none =>
    let idx := reg.idxToVid.length
    (idx, { vidToIdx := reg.vidToIdx ++ [(vid, idx)],
            idxToVid := reg.idxToVid ++ [vid] })

/-- C7: `_get_vid_idx` is idempotent within one session, and a vid not seen
before receives the index `len(_idx_to_vid_map)`, i.e. the current registry
size, so indices are assigned contiguously from 0 in first-seen order. -/
theorem getVidIdx_idempotent_and_sequential (reg : Registry) (vid : String) :
    (getVidIdx (getVidIdx reg vid).2 vid).1 = (getVidIdx reg vid).1 ∧
    (alookup reg.vidToIdx vid = none →
      (getVidIdx reg vid).1 = reg.idxToVid.length) := by
  constructor
  · unfold getVidIdx
    cases h : alookup reg.vidToIdx vid with
    | some idx => simp [h]
    | none => simp [h, alookup_append_single_self reg.vidToIdx vid _ h]
  · intro h
    unfold getVidIdx
    simp [h]

/-- Witness for C7 at a concrete registry and vid. -/
theorem getVidIdx_idempotent_and_sequential_witness :
    (getVidIdx (getVidIdx Registry.empty "player100").2 "player100").1 =
      (getVidIdx Registry.empty "player100").1 ∧
    (getVidIdx Registry.empty "player100").1 =
      Registry.empty.idxToVid.length := by
  refine ⟨(getVidIdx_idempotent_and_sequential Registry.empty "player100").1, ?_⟩
  exact (getVidIdx_idempotent_and_sequential Registry.empty "player100").2 (by decide)

/-! ### Remote adapter and subgraph sampling

Embedding of `SubgraphSampler.sample_subgraph` and its helpers
(`subgraph_sampler.py`, lines 27–195 and 259–319).  A discovered edge row is
`(src, dst, edge_type)`; a `GET SUBGRAPH` result row carries an optional
vertex `(vid, first_tag)` and an optional edge. -/

/-- One `(src, dst, edge_type)` row of a `GO ... YIELD` response. -/
abbrev EdgeRow := String × String × String

/-- One row of a `GET SUBGRAPH` response: optional vertex `(vid, tags()[0])`
in column 0, optional edge `(src, dst, name)` in column 1. -/
abbrev BulkRow := Option (String × String) × Option EdgeRow

/-- One row of a `FETCH PROP` response: `(vid, name, embedding1)`.  The name
component is `some s` when the value is a non-empty string, the embedding
component is `some n` when the value is a numeric (double or int) scalar;
`none` covers empty / non-convertible values, which the code skips. -/
abbrev PropRow := String × Option String × Option Int

/-- The remote NebulaGraph session, as seen through the queries the sampler
issues.  `vertexType v = some ty` models a succeeded `MATCH` returning a
non-empty label list for `v` (the stored `as_string()` value); `none`
collapses query failure, zero rows and an empty/missing label, in all of
which the code stores nothing.  `hopRows center hop` is the `GO hop STEPS`
response (`none` = `is_succeeded()` false), `bulkRows` the `GET SUBGRAPH`
response, and `fetchProps type vids` the batched `FETCH PROP` response. -/
structure Adapter where
  vertexType : String → Option String
  hopRows : String → Nat → Option (List EdgeRow)
  bulkRows : String → Nat → Option (List BulkRow)
  fetchProps : String → List String → Option (List PropRow)

/-- The mutable sampling state shared by `_get_subgraph_using_go` /
`_get_subgraph_using_subgraph`: the `nodes` set (insertion-ordered,
duplicate-free), the `edges` list, and `self._node_types`. -/
structure SampleState where
  nodes : List String
  edges : List EdgeRow
  nodeTypes : List (String × String)
  deriving Repr, DecidableEq

/-- Body of the row loop of `_get_subgraph_using_go` (lines 114–131): add both
endpoints to `nodes`, append the edge, and look up the type of `dst` when it
is not yet recorded. -/
def goProcessRow (vertexType : String → Option String) (st : SampleState)
    (row : EdgeRow) : SampleState :=
  let (src, dst, edgeType) := row
  { nodes := addToSet (addToSet st.nodes src) dst,
    edges := st.edges ++ [(src, dst, edgeType)],
    nodeTypes :=
      if (alookup st.nodeTypes dst).isNone then
        match vertexType dst with
        | some ty => st.nodeTypes ++ [(dst, ty)]
        | none => st.nodeTypes
      else st.nodeTypes }

/-- The row loop of `_get_subgraph_using_go` with its node-budget break
(lines 114–135): stop as soon as `len(nodes) >= max_nodes`, checked after
each row. -/
def goProcessRows (vertexType : String → Option String) (maxNodes : Nat) :
    List EdgeRow → SampleState → SampleState
  | [], st => st
  | row :: rest, st =>
    let st' := goProcessRow vertexType st row
    if maxNodes ≤ st'.nodes.length then st'
    else goProcessRows vertexType maxNodes rest st'

/-- The hop loop of `_get_subgraph_using_go` (lines 105–139): a failed hop
response is skipped entirely; a succeeded one is processed row by row, after
which the node budget is checked again. -/
def goProcessHops (vertexType : String → Option String) (maxNodes : Nat) :
    List (Option (List EdgeRow)) → SampleState → SampleState
  | [], st => st
  | resp :: rest, st =>
    match resp with
    | none => goProcessHops vertexType maxNodes rest st
    | some rows =>
      let st' := goProcessRows vertexType maxNodes rows st
      if maxNodes ≤ st'.nodes.length then st'
      else goProcessHops vertexType maxNodes rest st'

/-- `_get_subgraph_using_go` (lines 88–144): seed `nodes` with the center
vid, record the center's type when resolvable, then run hops `1..n_hops`. -/
def getSubgraphUsingGo (adapter : Adapter) (centerVid : String)
    (nHops maxNodes : Nat) : SampleState :=
  let st0 : SampleState :=
    { nodes := [centerVid], edges := [],
      nodeTypes :=
        match adapter.vertexType centerVid with
        | some ty => [(centerVid, ty)]
        | none => [] }
  goProcessHops adapter.vertexType maxNodes
    ((List.range nHops).map (fun h => adapter.hopRows centerVid (h + 1))) st0

/-- The row loop of `_get_subgraph_using_subgraph` (lines 163–190): a vertex
row records the vid and overwrites its type with the first tag; an edge row
adds both endpoints and the edge; the node budget is checked after each
row. -/
def bulkProcessRows (maxNodes : Nat) : List BulkRow → SampleState → SampleState
  | [], st => st
  | (vpart, epart) :: rest, st =>
    let st1 :=
      match vpart with
      | some (vid, tag) =>
        { st with nodes := addToSet st.nodes vid,
                  nodeTypes := aset st.nodeTypes vid tag }
      | none => st
    let st2 :=
      match epart with
      | some (src, dst, edgeType) =>
        { st1 with nodes := addToSet (addToSet st1.nodes src) dst,
                   edges := st1.edges ++ [(src, dst, edgeType)] }
      | none => st1
    if maxNodes ≤ st2.nodes.length then st2
    else bulkProcessRows maxNodes rest st2

/-- `_get_subgraph_using_subgraph` (lines 146–195): one `GET SUBGRAPH`
request; a failed response leaves only the seeded center vid. -/
def getSubgraphUsingSubgraph (adapter : Adapter) (centerVid : String)
    (nHops maxNodes : Nat) : SampleState :=
  let st0 : SampleState := { nodes := [centerVid], edges := [], nodeTypes := [] }
  match adapter.bulkRows centerVid nHops with
  | none => st0
  | some rows => bulkProcessRows maxNodes rows st0

/-- Result of `_create_edge_index`: the flattened `[2, E]` edge index (as its
list of columns), the per-type edge lists written to `self._edge_indices`,
and the registry after mapping every endpoint. -/
structure EdgeIndexResult where
  edgeIndex : List (Nat × Nat)
  edgeIndicesByType : List (String × List (Nat × Nat))
  reg : Registry
  deriving Repr, DecidableEq

/-- Body of the edge loop of `_create_edge_index` (lines 227–239): map both
endpoints through `_get_vid_idx`, append `(srcIdx, dstIdx)` to the group of
the edge type, and when `bidirectional` also append `(dstIdx, srcIdx)`. -/
def createEdgeIndexStep (bidir : Bool)
    (acc : List (String × List (Nat × Nat)) × Registry) (e : EdgeRow) :
    List (String × List (Nat × Nat)) × Registry :=
  let (srcVid, dstVid, edgeType) := e
  let (srcIdx, reg1) := getVidIdx acc.2 srcVid
  let (dstIdx, reg2) := getVidIdx reg1 dstVid
  let group := (alookup acc.1 edgeType).getD []
  let group := group ++ [(srcIdx, dstIdx)]
  let group := if bidir then group ++ [(dstIdx, srcIdx)] else group
  (aset acc.1 edgeType group, reg2)

/-- `_create_edge_index` (lines 208–256): early-out on an empty edge list
(leaving the registry untouched), otherwise group edges by type and flatten
the groups in type-first-seen order into one edge index. -/
def createEdgeIndex (edges : List EdgeRow) (bidir : Bool) (reg : Registry) :
    EdgeIndexResult :=
  if edges = [] then { edgeIndex := [], edgeIndicesByType := [], reg := reg }
  else
    let (byType, reg') := edges.foldl (createEdgeIndexStep bidir) ([], reg)
    { edgeIndex := (byType.map (·.2)).flatten,
      edgeIndicesByType := byType,
      reg := reg' }

/-- A `features[vid]` entry of `_get_node_features`: always a name (defaulted
to `""`), plus an `embedding` key only when the fetched value was numeric. -/
structure NodeFeature where
  name : String
  embedding : Option Int
  deriving Repr, DecidableEq

/-- `node_vids_by_type` grouping of `_get_node_features` (lines 267–272):
vids grouped by their recorded type, `"unknown"` when absent. -/
def groupByType (nodeTypes : List (String × String)) (vids : List String) :
    List (String × List String) :=
  vids.foldl
    (fun acc vid =>
      let t := (alookup nodeTypes vid).getD "unknown"
      aset acc t ((alookup acc t).getD [] ++ [vid]))
    []

/-- The fixed `batch_size = 100` batching of `_get_node_features`
(lines 280–282). -/
def batches100 : List String → List (List String)
  | [] => []
  | x :: rest =>
    ((x :: rest).take 100) :: batches100 ((x :: rest).drop 100)
  termination_by l => l.length
  decreasing_by simp [List.length_drop]; omega

/-- Row handling of a succeeded `FETCH PROP` response (lines 293–317):
`features[vid] = {'name': name}` with the embedding key added only for a
numeric value. -/
def featureRow (feats : List (String × NodeFeature)) (row : PropRow) :
    List (String × NodeFeature) :=
  let (vid, nameOpt, embOpt) := row
  aset feats vid { name := nameOpt.getD "", embedding := embOpt }

/-- One batch of `_get_node_features`: a failed response contributes
nothing. -/
def featureBatch (fetch : String → List String → Option (List PropRow))
    (nodeType : String) (feats : List (String × NodeFeature))
    (batch : List String) : List (String × NodeFeature) :=
  match fetch nodeType batch with
  | none => feats
  | some rows => rows.foldl featureRow feats

/-- `_get_node_features` (lines 259–319): group the sampled vids by type,
skip the `"unknown"` group, and fetch properties in batches of 100. -/
def getNodeFeatures (fetch : String → List String → Option (List PropRow))
    (nodeTypes : List (String × String)) (nodeVids : List String) :
    List (String × NodeFeature) :=
  (groupByType nodeTypes nodeVids).foldl
    (fun feats g =>
      if g.1 = "unknown" then feats
      else (batches100 g.2).foldl (featureBatch fetch g.1) feats)
    []

/-- The result dictionary of `sample_subgraph` (lines 72–81). -/
structure Subgraph where
  centerNodeIdx : Nat
  edgeIndex : List (Nat × Nat)
  numNodes : Nat
  vidToIdx : List (String × Nat)
  idxToVid : List String
  nodeTypes : List (String × String)
  edgeIndicesByType : List (String × List (Nat × Nat))
  nodeFeatures : List (String × NodeFeature)
  deriving Repr, DecidableEq

/-- The strategy selection of `sample_subgraph` (lines 58–63): `GO` for
`n_hops <= 2`, `GET SUBGRAPH` for larger hop counts. -/
def sampledData (adapter : Adapter) (centerVid : String)
    (nHops maxNodes : Nat) : SampleState :=
  if nHops ≤ 2 then getSubgraphUsingGo adapter centerVid nHops maxNodes
  else getSubgraphUsingSubgraph adapter centerVid nHops maxNodes

/-- `SubgraphSampler.sample_subgraph` (lines 27–86): reset the per-call
registry, gather nodes/edges via `GO` (`n_hops <= 2`) or `GET SUBGRAPH`
(`n_hops > 2`), build the edge index, fetch node features, and assemble the
result dictionary (`center_node_idx` defaults to 0 when the center was never
assigned an index). -/
def sampleSubgraph (adapter : Adapter) (centerVid : String) (nHops : Nat)
    (useBidirectional : Bool) (maxNodes : Nat) : Subgraph :=
  let data := sampledData adapter centerVid nHops maxNodes
  let eir := createEdgeIndex data.edges useBidirectional Registry.empty
  let features := getNodeFeatures adapter.fetchProps data.nodeTypes data.nodes
  { centerNodeIdx := (alookup eir.reg.vidToIdx centerVid).getD 0,
    edgeIndex := eir.edgeIndex,
    numNodes := eir.reg.idxToVid.length,
    vidToIdx := eir.reg.vidToIdx,
    idxToVid := eir.reg.idxToVid,
    nodeTypes := data.nodeTypes,
    edgeIndicesByType := eir.edgeIndicesByType,
    nodeFeatures := features }

/-! ### Path finder

Embedding of `PathFinder.find_paths_bfs` and
`PathFinder.find_multihop_relationships` (`mvp_qa_system.py`, lines 101–214).
The BFS loop is defined by well-founded recursion on a potential of the
frontier, which establishes the termination half of the spec's
"terminates in bounded time" property. -/

/-- The `adj_list` construction of `find_paths_bfs` (lines 122–131): a dict
from source index to the list of destination indices, in edge order. -/
def buildAdjList (edgeIndex : List (Nat × Nat)) : List (Nat × List Nat) :=
  edgeIndex.foldl
    (fun adj e => aset adj e.1 ((alookup adj e.1).getD [] ++ [e.2])) []

/-- Python `set.add` for the `visited` set of integer indices. -/
def addIdxToSet (s : List Nat) (v : Nat) : List Nat :=
  if v ∈ s then s else s ++ [v]

/-- The neighbor-expansion loop of `find_paths_bfs` (lines 145–152): a
neighbor is enqueued when it is not currently visited or the popped path has
at most 2 vertices ("short path" leniency); when the popped path has more
than 2 vertices each enqueued neighbor is immediately marked visited, which
affects later neighbors of the same expansion.  Note the code reads
`idx_to_vid[neighbor_idx]` by plain indexing; all callers supply in-range
indices, and the model totalizes the access with a `""` default. -/
def expand (idxToVid : List String) (path : List String) :
    List Nat → List Nat → List (Nat × List String) × List Nat
  | [], visited => ([], visited)
  | n :: rest, visited =>
    if n ∉ visited ∨ path.length ≤ 2 then
      let entry := (n, path ++ [idxToVid.getD n ""])
      let visited' := if 2 < path.length then addIdxToSet visited n else visited
      let out := expand idxToVid path rest visited'
      (entry :: out.1, out.2)
    else
      expand idxToVid path rest visited

theorem expand_fst_length_le (idxToVid : List String) (path : List String)
    (nbrs : List Nat) (visited : List Nat) :
    (expand idxToVid path nbrs visited).1.length ≤ nbrs.length := by
  induction nbrs generalizing visited with
  | nil => simp [expand]
  | cons n rest ih =>
    by_cases h : n ∉ visited ∨ path.length ≤ 2
    · simp only [expand, if_pos h, List.length_cons]
      exact Nat.succ_le_succ (ih _)
    · simp only [expand, if_neg h, List.length_cons]
      exact Nat.le_succ_of_le (ih _)

theorem expand_fst_path_length (idxToVid : List String) (path : List String)
    (nbrs : List Nat) (visited : List Nat) :
    ∀ e ∈ (expand idxToVid path nbrs visited).1,
      e.2.length = path.length + 1 := by
  induction nbrs generalizing visited with
  | nil => simp [expand]
  | cons n rest ih =>
    by_cases h : n ∉ visited ∨ path.length ≤ 2
    · simp only [expand, if_pos h]
      rintro e he
      rcases List.mem_cons.mp he with rfl | he'
      · simp
      · exact ih _ e he'
    · simp only [expand, if_neg h]
      exact ih _

/-- The largest adjacency-list length, used to bound the fan-out of one BFS
expansion in the termination measure. -/
def adjBound (adj : List (Nat × List Nat)) : Nat :=
  (adj.map (fun p => p.2.length)).foldr max 0

theorem alookup_length_le_adjBound (adj : List (Nat × List Nat)) (cur : Nat) :
    ((alookup adj cur).getD []).length ≤ adjBound adj := by
  induction adj with
  | nil => simp [alookup, adjBound]
  | cons p rest ih =>
    obtain ⟨k, l⟩ := p
    by_cases hk : k = cur
    · simp [alookup, hk, adjBound]
    · simp only [alookup, hk, if_false, adjBound, List.map_cons, List.foldr_cons]
      exact le_trans ih (Nat.le_max_right _ _)

/-- Termination potential of a BFS frontier: an entry whose path has `l`
vertices contributes `(A+1) ^ (maxHops + 2 - l)`. -/
def queuePot (A maxHops : Nat) (queue : List (Nat × List String)) : Nat :=
  (queue.map (fun e => (A + 1) ^ (maxHops + 2 - e.2.length))).sum

theorem queuePot_cons (A maxHops : Nat) (e : Nat × List String)
    (rest : List (Nat × List String)) :
    queuePot A maxHops (e :: rest) =
      (A + 1) ^ (maxHops + 2 - e.2.length) + queuePot A maxHops rest := by
  simp [queuePot]

theorem queuePot_append (A maxHops : Nat)
    (q1 q2 : List (Nat × List String)) :
    queuePot A maxHops (q1 ++ q2) =
      queuePot A maxHops q1 + queuePot A maxHops q2 := by
  simp [queuePot]

theorem queuePot_tail_lt (A maxHops : Nat) (e : Nat × List String)
    (rest : List (Nat × List String)) :
    queuePot A maxHops rest < queuePot A maxHops (e :: rest) := by
  rw [queuePot_cons]
  have : 0 < (A + 1) ^ (maxHops + 2 - e.2.length) :=
    Nat.pos_pow_of_pos _ (Nat.succ_pos A)
  omega

theorem queuePot_expand_lt (A maxHops : Nat) (cur : Nat) (path : List String)
    (rest es : List (Nat × List String))
    (hlen : path.length ≤ maxHops + 1) (hcount : es.length ≤ A)
    (hpaths : ∀ e ∈ es, e.2.length = path.length + 1) :
    queuePot A maxHops (rest ++ es) <
      queuePot A maxHops ((cur, path) :: rest) := by
  rw [queuePot_append, queuePot_cons]
  show queuePot A maxHops rest + queuePot A maxHops es <
    (A + 1) ^ (maxHops + 2 - path.length) + queuePot A maxHops rest
  have hk : maxHops + 2 - (path.length + 1) + 1 = maxHops + 2 - path.length := by
    omega
  have hes : queuePot A maxHops es ≤ A * (A + 1) ^ (maxHops + 2 - (path.length + 1)) := by
    have hbound : ∀ x ∈ es.map (fun e => (A + 1) ^ (maxHops + 2 - e.2.length)),
        x ≤ (A + 1) ^ (maxHops + 2 - (path.length + 1)) := by
      intro x hx
      rcases List.mem_map.mp hx with ⟨e, he, rfl⟩
      rw [hpaths e he]
    have := List.sum_le_card_nsmul
      (es.map (fun e => (A + 1) ^ (maxHops + 2 - e.2.length))) _ hbound
    simp only [List.length_map, smul_eq_mul] at this
    exact le_trans this (Nat.mul_le_mul_right _ hcount)
  have hlt : A * (A + 1) ^ (maxHops + 2 - (path.length + 1)) <
      (A + 1) ^ (maxHops + 2 - path.length) := by
    rw [← hk, pow_succ]
    have hp : 0 < (A + 1) ^ (maxHops + 2 - (path.length + 1)) :=
      Nat.pos_pow_of_pos _ (Nat.succ_pos A)
    calc A * (A + 1) ^ (maxHops + 2 - (path.length + 1))
        = (A + 1) ^ (maxHops + 2 - (path.length + 1)) * A := by ring
      _ < (A + 1) ^ (maxHops + 2 - (path.length + 1)) * (A + 1) :=
          mul_lt_mul_of_pos_left (by omega) hp
  omega

/-- The BFS loop of `find_paths_bfs` (lines 134–152): while the queue is
non-empty and fewer than 5 paths are collected, pop an entry; discard it when
its path exceeds `max_hops + 1` vertices; record it when it reached the end
index; otherwise expand its neighbors.  Well-founded recursion on
`queuePot` proves the loop terminates for every input. -/
def bfsLoop (adj : List (Nat × List Nat)) (idxToVid : List String)
    (endIdx maxHops : Nat) :
    List (Nat × List String) → List Nat → List (List String) →
      List (List String)
  | [], _, paths => paths
  | (cur, path) :: rest, visited, paths =>
    if 5 ≤ paths.length then paths
    else if maxHops + 1 < path.length then
      bfsLoop adj idxToVid endIdx maxHops rest visited paths
    else if cur = endIdx then
      bfsLoop adj idxToVid endIdx maxHops rest visited (paths ++ [path])
    else
      let out := expand idxToVid path ((alookup adj cur).getD []) visited
      bfsLoop adj idxToVid endIdx maxHops (rest ++ out.1) out.2 paths
  termination_by queue _ _ => queuePot (adjBound adj) maxHops queue
  decreasing_by
  · exact queuePot_tail_lt _ _ _ _
  · exact queuePot_tail_lt _ _ _ _
  · exact queuePot_expand_lt _ _ _ _ _ _ (by omega)
      (le_trans (expand_fst_length_le _ _ _ _)
        (alookup_length_le_adjBound _ _))
      (expand_fst_path_length _ _ _ _)

/-- `PathFinder.find_paths_bfs` (lines 101–154): empty result when either
entity is missing from `vid_to_idx`; otherwise BFS from the start index with
the start index pre-visited. -/
def findPathsBFS (sg : Subgraph) (startEntity endEntity : String)
    (maxHops : Nat) : List (List String) :=
  match alookup sg.vidToIdx startEntity, alookup sg.vidToIdx endEntity with
  | some startIdx, some endIdx =>
    bfsLoop (buildAdjList sg.edgeIndex) sg.idxToVid endIdx maxHops
      [(startIdx, [startEntity])] [startIdx] []
  | _, _ => []

/-- The result dictionary of `find_multihop_relationships` (lines 169–214).
`bridgeNodes` is `some` exactly when the Python dict carries the
`'bridge_nodes'` key. -/
structure PathResult where
  found : Bool
  paths : List (List String)
  subgraph : Subgraph
  method : String
  bridgeNodes : Option (List String)
  deriving Repr, DecidableEq

/-- `PathFinder.find_multihop_relationships` (lines 156–214): sample around
A (`n_hops = max_hops`, `max_nodes = 500`); if B is indexed in A's subgraph,
search directly (`method = 'direct_subgraph'`); otherwise sample around B
(`n_hops = max_hops // 2`), intersect the vertex sets, and stitch paths
through up to 3 bridge nodes (`method = 'bridge_nodes'`), else report
`'no_connection'`.  Python iterates the unordered set intersection; the
model fixes A's key order, which claims below do not depend on. -/
def findMultihopRelationships (adapter : Adapter) (entityA entityB : String)
    (maxHops : Nat) : PathResult :=
  let subgraphA := sampleSubgraph adapter entityA maxHops true 500
  if (alookup subgraphA.vidToIdx entityB).isSome then
    { found := true,
      paths := findPathsBFS subgraphA entityA entityB maxHops,
      subgraph := subgraphA,
      method := "direct_subgraph",
      bridgeNodes := none }
  else
    let subgraphB := sampleSubgraph adapter entityB (maxHops / 2) true 500
    let nodesA := subgraphA.vidToIdx.map (·.1)
    let nodesB := subgraphB.vidToIdx.map (·.1)
    let intersection := nodesA.filter (· ∈ nodesB)
    if intersection.isEmpty then
      { found := false, paths := [], subgraph := subgraphA,
        method := "no_connection", bridgeNodes := none }
    else
      let bridgePaths :=
        (intersection.take 3).foldl
          (fun acc bridgeNode =>
            let pathsAToBridge :=
              findPathsBFS subgraphA entityA bridgeNode (maxHops / 2)
            let pathsBridgeToB :=
              findPathsBFS subgraphB bridgeNode entityB (maxHops / 2)
            acc ++ ((pathsAToBridge.take 2).map
              (fun pa => (pathsBridgeToB.take 2).map
                (fun pb => pa ++ pb.drop 1))).flatten)
          []
      { found := true, paths := bridgePaths.take 5, subgraph := subgraphA,
        method := "bridge_nodes", bridgeNodes := some intersection }

/-! ### Feature-store facade

Embedding of `NebulaFeatureStore` (`remote_backend.py`, lines 15–210).
Tensors are modelled as their lists of integer rows (`List (List Int)`); the
numeric payload is irrelevant to the cache algebra under verification.  The
remote fallback of `_get_tensor` is parametrized by the
`get_entity_embedding` function and the optional `id_mapper`. -/

/-- The mutable state of `NebulaFeatureStore`: `_tensor_cache` keyed by
`(group, name)` and `_tensor_attrs` mapping a group to its set of feature
names. -/
structure FeatureStoreState where
  tensorCache : List ((String × String) × List (List Int))
  tensorAttrs : List (String × List String)
  deriving Repr, DecidableEq

def FeatureStoreState.empty : FeatureStoreState := ⟨[], []⟩

/-- `NebulaFeatureStore._get_tensor` (lines 36–86): serve from the cache when
`(group, name)` is cached (whole tensor, or a row gather for an index);
otherwise an empty tensor for a missing index, or per-node remote embeddings
(`[0]` rows standing for the `0.0` default) for a present one. -/
def getTensorFS (getEntityEmbedding : String → String → String → Option Int)
    (idMapper : Option (Nat → String)) (st : FeatureStoreState)
    (group name : String) (index : Option (List Nat)) : List (List Int) :=
  match alookup st.tensorCache (group, name) with
  | some tensorData =>
    match index with
    | none => tensorData
    | some idxs => idxs.map (fun i => tensorData.getD i [])
  | none =>
    match index with
    | none => []
    | some idxs =>
      let nodeIds :=
        match idMapper with
        | some f => idxs.map f
        | none => idxs.map (fun i => group ++ toString i)
      nodeIds.map (fun nid =>
        match getEntityEmbedding nid group name with
        | none => [0]
        | some e => [e])

/-- `NebulaFeatureStore._put_tensor` (lines 109–144): register the name under
the group's attribute set, then store the whole tensor (index `None`) or
scatter rows into a zero-initialized tensor of `max(index) + 1` rows. -/
def putTensorFS (st : FeatureStoreState) (group name : String)
    (tensor : List (List Int)) (index : Option (List Nat)) :
    Bool × FeatureStoreState :=
  let attrs :=
    match alookup st.tensorAttrs group with
    | none => st.tensorAttrs ++ [(group, [name])]
    | some s => aset st.tensorAttrs group (addToSet s name)
  let cache :=
    match index with
    | none => aset st.tensorCache (group, name) tensor
    | some idxs =>
      let base :=
        match alookup st.tensorCache (group, name) with
        | some t => t
        | none =>
          List.replicate (idxs.foldr max 0 + 1)
            (List.replicate (tensor.getD 0 []).length 0)
      let updated :=
        (idxs.zip tensor).foldl (fun t p => t.set p.1 p.2) base
      aset st.tensorCache (group, name) updated
  (true, { tensorCache := cache, tensorAttrs := attrs })

/-- `NebulaFeatureStore._remove_tensor` (lines 146–169): delete the cached
tensor and drop the name from the group's attribute set, returning `True`;
return `False` and change nothing when `(group, name)` is not cached. -/
def removeTensorFS (st : FeatureStoreState) (group name : String) :
    Bool × FeatureStoreState :=
  match alookup st.tensorCache (group, name) with
  | some _ =>
    let cache := adel st.tensorCache (group, name)
    let attrs :=
      match alookup st.tensorAttrs group with
      | some s =>
        if name ∈ s then aset st.tensorAttrs group (s.erase name)
        else st.tensorAttrs
      | none => st.tensorAttrs
    (true, { tensorCache := cache, tensorAttrs := attrs })
  | none => (false, st)

/-- `NebulaFeatureStore.get_all_tensor_attrs` (lines 171–180): the attrs dict
with each set listed; the model already keeps the sets as lists. -/
def getAllTensorAttrsFS (st : FeatureStoreState) : List (String × List String) :=
  st.tensorAttrs.map (fun p => (p.1, p.2))

/-! ### Association-list lemmas for the feature-store algebra -/

theorem alookup_aset_self {α β : Type} [DecidableEq α]
    (l : List (α × β)) (k : α) (v : β) : alookup (aset l k v) k = some v := by
  induction l with
  | nil => simp [aset, alookup]
  | cons p rest ih =>
    obtain ⟨k', w⟩ := p
    by_cases hk : k' = k
    · simp [aset, alookup, hk]
    · simp [aset, alookup, hk, ih]

theorem alookup_eq_none_of_not_mem_keys {α β : Type} [DecidableEq α]
    (l : List (α × β)) (k : α) (h : k ∉ l.map Prod.fst) :
    alookup l k = none := by
  induction l with
  | nil => rfl
  | cons p rest ih =>
    obtain ⟨k', w⟩ := p
    simp only [List.map_cons, List.mem_cons] at h
    push_neg at h
    have hne : ¬k' = k := fun hh => h.1 hh.symm
    simp [alookup, hne, ih h.2]

theorem alookup_adel_aset_self {α β : Type} [DecidableEq α]
    (l : List (α × β)) (k : α) (v : β) (h : (l.map Prod.fst).Nodup) :
    alookup (adel (aset l k v) k) k = none := by
  induction l with
  | nil => simp [aset, adel, alookup]
  | cons p rest ih =>
    obtain ⟨k', w⟩ := p
    simp only [List.map_cons, List.nodup_cons] at h
    by_cases hk : k' = k
    · subst hk
      simp only [aset, if_pos rfl, adel, if_pos rfl]
      exact alookup_eq_none_of_not_mem_keys rest k' h.1
    · simp [aset, hk, adel, alookup, ih h.2]

theorem alookup_mem {α β : Type} [DecidableEq α]
    (l : List (α × β)) (k : α) (v : β) (h : alookup l k = some v) :
    (k, v) ∈ l := by
  induction l with
  | nil => simp [alookup] at h
  | cons p rest ih =>
    obtain ⟨k', w⟩ := p
    by_cases hk : k' = k
    · subst hk
      have hwv : w = v := by simpa [alookup] using h
      subst hwv
      exact List.mem_cons_self _ _
    · simp only [alookup, if_neg hk] at h
      exact List.mem_cons_of_mem _ (ih h)

theorem mem_addToSet_self (s : List String) (v : String) : v ∈ addToSet s v := by
  unfold addToSet
  by_cases h : v ∈ s
  · simp [h]
  · simp [h]

theorem not_mem_erase_addToSet (s : List String) (v : String) (h : s.Nodup) :
    v ∉ (addToSet s v).erase v := by
  unfold addToSet
  by_cases hv : v ∈ s
  · rw [if_pos hv]
    intro hmem
    exact ((h.mem_erase_iff.mp hmem).1 rfl).elim
  · rw [if_neg hv, List.erase_append_right _ hv]
    simp [List.erase_cons_head, hv]

theorem removeTensorFS_of_not_cached (st : FeatureStoreState)
    (group name : String) (h : alookup st.tensorCache (group, name) = none) :
    removeTensorFS st group name = (false, st) := by
  unfold removeTensorFS
  rw [h]

theorem removeTensorFS_of_cached (st : FeatureStoreState)
    (group name : String) (t : List (List Int)) (s : List String)
    (hc : alookup st.tensorCache (group, name) = some t)
    (ha : alookup st.tensorAttrs group = some s) (hm : name ∈ s) :
    removeTensorFS st group name =
      (true,
        { tensorCache := adel st.tensorCache (group, name),
          tensorAttrs := aset st.tensorAttrs group (s.erase name) }) := by
  unfold removeTensorFS
  rw [hc, ha]
  show (true,
      ({ tensorCache := adel st.tensorCache (group, name),
         tensorAttrs :=
           if name ∈ s then aset st.tensorAttrs group (s.erase name)
           else st.tensorAttrs } : FeatureStoreState)) =
    (true,
      ({ tensorCache := adel st.tensorCache (group, name),
         tensorAttrs :=
           aset st.tensorAttrs group (s.erase name) } : FeatureStoreState))
  rw [if_pos hm]

/-- C10: the feature-store cache obeys the put/get/remove round trip: after
`_put_tensor(group, name, tensor)` with index `None` (which returns `True`),
`_get_tensor(group, name, None)` returns exactly the stored tensor and
`get_all_tensor_attrs` lists `name` under `group`; a subsequent
`_remove_tensor(group, name)` returns `True` and removes both the cached
tensor and the name from the group's attribute set, after which
`_remove_tensor(group, name)` returns `False` and changes nothing.  The
hypotheses state the dict/set well-formedness every state reachable through
the API has: cache keys are duplicate-free and each attribute set is
duplicate-free. -/
theorem featureStore_put_get_remove_roundtrip
    (gee : String → String → String → Option Int)
    (idMapper : Option (Nat → String)) (st : FeatureStoreState)
    (group name : String) (tensor : List (List Int))
    (hCache : (st.tensorCache.map Prod.fst).Nodup)
    (hAttrs : ∀ p ∈ st.tensorAttrs, p.2.Nodup) :
    (putTensorFS st group name tensor none).1 = true ∧
    getTensorFS gee idMapper (putTensorFS st group name tensor none).2
      group name none = tensor ∧
    (∃ s, alookup (getAllTensorAttrsFS
        (putTensorFS st group name tensor none).2) group = some s ∧
      name ∈ s) ∧
    (removeTensorFS (putTensorFS st group name tensor none).2
        group name).1 = true ∧
    alookup (removeTensorFS (putTensorFS st group name tensor none).2
        group name).2.tensorCache (group, name) = none ∧
    (∀ s, alookup (removeTensorFS (putTensorFS st group name tensor none).2
        group name).2.tensorAttrs group = some s → name ∉ s) ∧
    removeTensorFS (removeTensorFS (putTensorFS st group name tensor none).2
        group name).2 group name =
      (false, (removeTensorFS (putTensorFS st group name tensor none).2
        group name).2) := by
  -- the state after the put, in explicit form
  have hst1 : (putTensorFS st group name tensor none).2 =
      { tensorCache := aset st.tensorCache (group, name) tensor,
        tensorAttrs :=
          match alookup st.tensorAttrs group with
          | none => st.tensorAttrs ++ [(group, [name])]
          | some s => aset st.tensorAttrs group (addToSet s name) } := rfl
  -- the attribute set recorded for `group` after the put, with `name` in it
  -- and duplicate-free precursor facts
  obtain ⟨s1, hlookA, hmem, herase⟩ :
      ∃ s1, alookup (putTensorFS st group name tensor none).2.tensorAttrs
          group = some s1 ∧ name ∈ s1 ∧ name ∉ s1.erase name := by
    cases h : alookup st.tensorAttrs group with
    | none =>
      refine ⟨[name], ?_, by simp, by simp⟩
      rw [hst1]
      simp only [h]
      exact alookup_append_single_self _ _ _ h
    | some s0 =>
      have hs0 : s0.Nodup := hAttrs (group, s0) (alookup_mem _ _ _ h)
      refine ⟨addToSet s0 name, ?_, mem_addToSet_self s0 name,
        not_mem_erase_addToSet s0 name hs0⟩
      rw [hst1]
      simp only [h]
      exact alookup_aset_self _ _ _
  have hlookC : alookup (putTensorFS st group name tensor none).2.tensorCache
      (group, name) = some tensor := by
    rw [hst1]; exact alookup_aset_self _ _ _
  -- the remove step in explicit form
  have hrem : removeTensorFS (putTensorFS st group name tensor none).2
      group name =
      (true,
        { tensorCache :=
            adel (putTensorFS st group name tensor none).2.tensorCache
              (group, name),
          tensorAttrs :=
            aset (putTensorFS st group name tensor none).2.tensorAttrs
              group (s1.erase name) }) :=
    removeTensorFS_of_cached _ _ _ _ _ hlookC hlookA hmem
  have hCacheGone : alookup (removeTensorFS
      (putTensorFS st group name tensor none).2 group name).2.tensorCache
      (group, name) = none := by
    rw [hrem, hst1]
    exact alookup_adel_aset_self _ _ _ hCache
  refine ⟨rfl, ?_, ?_, ?_, hCacheGone, ?_, ?_⟩
  · unfold getTensorFS
    rw [hlookC]
  · refine ⟨s1, ?_, hmem⟩
    unfold getAllTensorAttrsFS
    rw [show (fun p : String × List String => (p.1, p.2)) = id by
          funext p; exact Prod.mk.eta, List.map_id]
    exact hlookA
  · rw [hrem]
  · intro s hs
    rw [hrem] at hs
    simp only at hs
    rw [alookup_aset_self] at hs
    cases hs
    exact herase
  · exact removeTensorFS_of_not_cached _ _ _ hCacheGone

/-- Witness for C10 at the empty store with a concrete tensor. -/
theorem featureStore_put_get_remove_roundtrip_witness :
    getTensorFS (fun _ _ _ => none) none
      (putTensorFS FeatureStoreState.empty "player" "embedding1"
        [[3]] none).2 "player" "embedding1" none = [[3]] :=
  (featureStore_put_get_remove_roundtrip (fun _ _ _ => none) none
    FeatureStoreState.empty "player" "embedding1" [[3]]
    (by simp [FeatureStoreState.empty])
    (by simp [FeatureStoreState.empty])).2.1

/-! ### Bidirectional edge materialization (C6) -/

theorem alookup_aset_ne {α β : Type} [DecidableEq α]
    (l : List (α × β)) (k : α) (v : β) (k' : α) (h : k ≠ k') :
    alookup (aset l k v) k' = alookup l k' := by
  induction l with
  | nil => simp [aset, alookup, h]
  | cons p rest ih =>
    obtain ⟨k0, w⟩ := p
    by_cases hk : k0 = k
    · subst hk
      simp [aset, alookup, h]
    · simp [aset, alookup, hk, ih]

theorem getVidIdx_lookup_self (reg : Registry) (v : String) :
    alookup (getVidIdx reg v).2.vidToIdx v = some (getVidIdx reg v).1 := by
  unfold getVidIdx
  cases h : alookup reg.vidToIdx v with
  | some idx => simp [h]
  | none => simpa [h] using alookup_append_single_self _ _ _ h

theorem getVidIdx_lookup_mono (reg : Registry) (v' v : String) (i : Nat)
    (h : alookup reg.vidToIdx v = some i) :
    alookup (getVidIdx reg v').2.vidToIdx v = some i := by
  unfold getVidIdx
  cases h' : alookup reg.vidToIdx v' with
  | some idx => simpa [h']
  | none =>
    have hne : v' ≠ v := by
      intro he
      rw [he, h] at h'
      exact Option.noConfusion h'
    simpa [h'] using (alookup_append_single_ne reg.vidToIdx v' _ v hne).trans h

/-- The edge `(u, v, t)` is fully materialized in the grouped edge lists and
the registry: both endpoints are indexed and both directions appear in the
group of `t`. -/
def EdgeMaterialized (byType : List (String × List (Nat × Nat)))
    (reg : Registry) (e : EdgeRow) : Prop :=
  ∃ ui vi, alookup reg.vidToIdx e.1 = some ui ∧
    alookup reg.vidToIdx e.2.1 = some vi ∧
    (ui, vi) ∈ (alookup byType e.2.2).getD [] ∧
    (vi, ui) ∈ (alookup byType e.2.2).getD []

theorem createEdgeIndexStep_true_eq
    (byType : List (String × List (Nat × Nat))) (reg : Registry)
    (u v t : String) :
    createEdgeIndexStep true (byType, reg) (u, v, t) =
      (aset byType t
        (((alookup byType t).getD [] ++
          [((getVidIdx reg u).1, (getVidIdx (getVidIdx reg u).2 v).1)]) ++
          [((getVidIdx (getVidIdx reg u).2 v).1, (getVidIdx reg u).1)]),
       (getVidIdx (getVidIdx reg u).2 v).2) := rfl

theorem edgeMaterialized_step (byType : List (String × List (Nat × Nat)))
    (reg : Registry) (u v t : String) :
    EdgeMaterialized (createEdgeIndexStep true (byType, reg) (u, v, t)).1
      (createEdgeIndexStep true (byType, reg) (u, v, t)).2 (u, v, t) := by
  rw [createEdgeIndexStep_true_eq]
  refine ⟨(getVidIdx reg u).1, (getVidIdx (getVidIdx reg u).2 v).1,
    ?_, getVidIdx_lookup_self _ _, ?_, ?_⟩
  · exact getVidIdx_lookup_mono _ _ _ _ (getVidIdx_lookup_self reg u)
  · simp [alookup_aset_self]
  · simp [alookup_aset_self]

theorem edgeMaterialized_step_mono (byType : List (String × List (Nat × Nat)))
    (reg : Registry) (e e' : EdgeRow)
    (h : EdgeMaterialized byType reg e) :
    EdgeMaterialized (createEdgeIndexStep true (byType, reg) e').1
      (createEdgeIndexStep true (byType, reg) e').2 e := by
  obtain ⟨u', v', t'⟩ := e'
  obtain ⟨ui, vi, hu, hv, h1, h2⟩ := h
  rw [createEdgeIndexStep_true_eq]
  refine ⟨ui, vi,
    getVidIdx_lookup_mono _ _ _ _ (getVidIdx_lookup_mono _ _ _ _ hu),
    getVidIdx_lookup_mono _ _ _ _ (getVidIdx_lookup_mono _ _ _ _ hv),
    ?_, ?_⟩
  · by_cases ht : t' = e.2.2
    · subst ht
      rw [alookup_aset_self, Option.getD_some]
      exact List.mem_append_left _ (List.mem_append_left _ h1)
    · rw [alookup_aset_ne _ _ _ _ ht]
      exact h1
  · by_cases ht : t' = e.2.2
    · subst ht
      rw [alookup_aset_self, Option.getD_some]
      exact List.mem_append_left _ (List.mem_append_left _ h2)
    · rw [alookup_aset_ne _ _ _ _ ht]
      exact h2

theorem edgeMaterialized_foldl_mono
    (l : List EdgeRow) (acc : List (String × List (Nat × Nat)) × Registry)
    (e : EdgeRow) (h : EdgeMaterialized acc.1 acc.2 e) :
    EdgeMaterialized (l.foldl (createEdgeIndexStep true) acc).1
      (l.foldl (createEdgeIndexStep true) acc).2 e := by
  induction l generalizing acc with
  | nil => exact h
  | cons e' rest ih =>
    rw [List.foldl_cons]
    exact ih _ (by
      obtain ⟨byType, reg⟩ := acc
      exact edgeMaterialized_step_mono byType reg e e' h)

theorem edgeMaterialized_foldl (l : List EdgeRow)
    (acc : List (String × List (Nat × Nat)) × Registry) (e : EdgeRow)
    (he : e ∈ l) :
    EdgeMaterialized (l.foldl (createEdgeIndexStep true) acc).1
      (l.foldl (createEdgeIndexStep true) acc).2 e := by
  induction l generalizing acc with
  | nil => cases he
  | cons e' rest ih =>
    rw [List.foldl_cons]
    rcases List.mem_cons.mp he with rfl | he'
    · obtain ⟨byType, reg⟩ := acc
      obtain ⟨u, v, t⟩ := e
      exact edgeMaterialized_foldl_mono rest _ _
        (edgeMaterialized_step byType reg u v t)
    · exact ih _ he'

theorem mem_flatten_of_alookup {α : Type} [DecidableEq α]
    (l : List (α × List (Nat × Nat))) (k : α) (g : List (Nat × Nat))
    (p : Nat × Nat) (hl : alookup l k = some g) (hp : p ∈ g) :
    p ∈ (l.map (·.2)).flatten := by
  refine List.mem_flatten.mpr ⟨g, ?_, hp⟩
  exact List.mem_map.mpr ⟨(k, g), alookup_mem _ _ _ hl, rfl⟩

/-- C6: with `use_bidirectional = true`, every discovered edge `(u, v, t)`
has both `(uIdx, vIdx)` and `(vIdx, uIdx)` in the per-type edge list for `t`
and in the flattened `edge_index`. -/
theorem sampleSubgraph_bidirectional (adapter : Adapter) (centerVid : String)
    (nHops maxNodes : Nat) (u v t : String)
    (hmem : (u, v, t) ∈ (sampledData adapter centerVid nHops maxNodes).edges) :
    ∃ ui vi,
      alookup (sampleSubgraph adapter centerVid nHops true maxNodes).vidToIdx
        u = some ui ∧
      alookup (sampleSubgraph adapter centerVid nHops true maxNodes).vidToIdx
        v = some vi ∧
      (∃ grp, alookup (sampleSubgraph adapter centerVid nHops true
          maxNodes).edgeIndicesByType t = some grp ∧
        (ui, vi) ∈ grp ∧ (vi, ui) ∈ grp) ∧
      (ui, vi) ∈ (sampleSubgraph adapter centerVid nHops true
        maxNodes).edgeIndex ∧
      (vi, ui) ∈ (sampleSubgraph adapter centerVid nHops true
        maxNodes).edgeIndex := by
  have hne : (sampledData adapter centerVid nHops maxNodes).edges ≠ [] := by
    intro h
    rw [h] at hmem
    cases hmem
  have hmat := edgeMaterialized_foldl
    (sampledData adapter centerVid nHops maxNodes).edges
    ([], Registry.empty) (u, v, t) hmem
  obtain ⟨ui, vi, hu, hv, h1, h2⟩ := hmat
  have heir : createEdgeIndex (sampledData adapter centerVid nHops
      maxNodes).edges true Registry.empty =
      { edgeIndex :=
          ((((sampledData adapter centerVid nHops maxNodes).edges.foldl
            (createEdgeIndexStep true) ([], Registry.empty)).1.map
              (·.2)).flatten),
        edgeIndicesByType :=
          ((sampledData adapter centerVid nHops maxNodes).edges.foldl
            (createEdgeIndexStep true) ([], Registry.empty)).1,
        reg :=
          ((sampledData adapter centerVid nHops maxNodes).edges.foldl
            (createEdgeIndexStep true) ([], Registry.empty)).2 } := by
    unfold createEdgeIndex
    rw [if_neg hne]
  obtain ⟨grp, hgrp⟩ : ∃ grp,
      alookup (((sampledData adapter centerVid nHops maxNodes).edges.foldl
        (createEdgeIndexStep true) ([], Registry.empty)).1) t = some grp := by
    cases h : alookup (((sampledData adapter centerVid nHops
        maxNodes).edges.foldl (createEdgeIndexStep true)
          ([], Registry.empty)).1) t with
    | some g => exact ⟨g, rfl⟩
    | none =>
      rw [h] at h1
      cases h1
  rw [hgrp] at h1 h2
  simp only [Option.getD_some] at h1 h2
  refine ⟨ui, vi, ?_, ?_, ⟨grp, ?_, h1, h2⟩, ?_, ?_⟩
  · show alookup (createEdgeIndex (sampledData adapter centerVid nHops
      maxNodes).edges true Registry.empty).reg.vidToIdx u = some ui
    rw [heir]
    exact hu
  · show alookup (createEdgeIndex (sampledData adapter centerVid nHops
      maxNodes).edges true Registry.empty).reg.vidToIdx v = some vi
    rw [heir]
    exact hv
  · show alookup (createEdgeIndex (sampledData adapter centerVid nHops
      maxNodes).edges true Registry.empty).edgeIndicesByType t = some grp
    rw [heir]
    exact hgrp
  · show (ui, vi) ∈ (createEdgeIndex (sampledData adapter centerVid nHops
      maxNodes).edges true Registry.empty).edgeIndex
    rw [heir]
    exact mem_flatten_of_alookup _ _ _ _ hgrp h1
  · show (vi, ui) ∈ (createEdgeIndex (sampledData adapter centerVid nHops
      maxNodes).edges true Registry.empty).edgeIndex
    rw [heir]
    exact mem_flatten_of_alookup _ _ _ _ hgrp h2

/-- A one-edge adapter used as concrete witness input: `GO` hop 1 from
`"player100"` discovers the single edge `player100 -serve-> team204`. -/
def oneEdgeAdapter : Adapter :=
  { vertexType := fun _ => none,
    hopRows := fun center hop =>
      if center = "player100" ∧ hop = 1 then
        some [("player100", "team204", "serve")]
      else some [],
    bulkRows := fun _ _ => none,
    fetchProps := fun _ _ => none }

/-- Witness for C6 on the one-edge adapter. -/
theorem sampleSubgraph_bidirectional_witness :
    ∃ ui vi,
      alookup (sampleSubgraph oneEdgeAdapter "player100" 1 true
        1000).vidToIdx "player100" = some ui ∧
      alookup (sampleSubgraph oneEdgeAdapter "player100" 1 true
        1000).vidToIdx "team204" = some vi ∧
      (∃ grp, alookup (sampleSubgraph oneEdgeAdapter "player100" 1 true
          1000).edgeIndicesByType "serve" = some grp ∧
        (ui, vi) ∈ grp ∧ (vi, ui) ∈ grp) ∧
      (ui, vi) ∈ (sampleSubgraph oneEdgeAdapter "player100" 1 true
        1000).edgeIndex ∧
      (vi, ui) ∈ (sampleSubgraph oneEdgeAdapter "player100" 1 true
        1000).edgeIndex :=
  sampleSubgraph_bidirectional oneEdgeAdapter "player100" 1 1000
    "player100" "team204" "serve" (by decide)

/-! ### Empty samples and failed remote calls (C8, C9) -/

/-- An adapter whose every remote call fails (`is_succeeded()` false). -/
def failAdapter : Adapter :=
  { vertexType := fun _ => none,
    hopRows := fun _ _ => none,
    bulkRows := fun _ _ => none,
    fetchProps := fun _ _ => none }

theorem goProcessHops_all_none (vt : String → Option String) (maxNodes : Nat)
    (l : List (Option (List EdgeRow))) (st : SampleState)
    (h : ∀ x ∈ l, x = none) :
    goProcessHops vt maxNodes l st = st := by
  induction l with
  | nil => rfl
  | cons r rest ih =>
    have hr : r = none := h r (List.mem_cons_self _ _)
    subst hr
    simp only [goProcessHops]
    exact ih (fun x hx => h x (List.mem_cons_of_mem _ hx))

theorem featureBatches_fail_const (g : String) (bs : List (List String))
    (fs : List (String × NodeFeature)) :
    bs.foldl (featureBatch (fun _ _ => none) g) fs = fs := by
  induction bs generalizing fs with
  | nil => rfl
  | cons b rest ih =>
    rw [List.foldl_cons]
    exact ih fs

theorem getNodeFeatures_fail (nodeTypes : List (String × String))
    (vids : List String) :
    getNodeFeatures (fun _ _ => none) nodeTypes vids = [] := by
  unfold getNodeFeatures
  generalize groupByType nodeTypes vids = gs
  induction gs generalizing nodeTypes with
  | nil => rfl
  | cons g rest ih =>
    rw [List.foldl_cons]
    by_cases hu : g.1 = "unknown"
    · rw [if_pos hu]
      exact ih nodeTypes
    · rw [if_neg hu, featureBatches_fail_const]
      exact ih nodeTypes

theorem createEdgeIndex_nil (bidir : Bool) (reg : Registry) :
    createEdgeIndex [] bidir reg =
      { edgeIndex := [], edgeIndicesByType := [], reg := reg } := rfl

theorem sampledData_failAdapter (centerVid : String) (nHops maxNodes : Nat) :
    sampledData failAdapter centerVid nHops maxNodes =
      { nodes := [centerVid], edges := [], nodeTypes := [] } := by
  unfold sampledData
  by_cases h : nHops ≤ 2
  · rw [if_pos h]
    unfold getSubgraphUsingGo
    have hvt : failAdapter.vertexType centerVid = none := rfl
    rw [hvt]
    exact goProcessHops_all_none _ _ _ _ (by
      intro x hx
      rcases List.mem_map.mp hx with ⟨i, _, rfl⟩
      rfl)
  · rw [if_neg h]
    rfl

/-- C8: a failed remote call is non-fatal and is treated as "no results":
(a) a failed `GO` hop response leaves the sampling state exactly as if that
hop were not issued at all, and the remaining hops still run; (b) a failed
`FETCH PROP` response contributes no features, so an all-failing property
fetch yields the empty feature dict; (c) even when every remote call fails,
`sample_subgraph` still returns a complete (empty) subgraph dictionary
instead of raising. -/
theorem queryFailed_nonfatal :
    (∀ (vt : String → Option String) (maxNodes : Nat)
      (l1 l2 : List (Option (List EdgeRow))) (st : SampleState),
      goProcessHops vt maxNodes (l1 ++ none :: l2) st =
        goProcessHops vt maxNodes (l1 ++ l2) st) ∧
    (∀ (nodeTypes : List (String × String)) (vids : List String),
      getNodeFeatures (fun _ _ => none) nodeTypes vids = []) ∧
    (∀ (centerVid : String) (nHops : Nat) (bidir : Bool) (maxNodes : Nat),
      sampleSubgraph failAdapter centerVid nHops bidir maxNodes =
        { centerNodeIdx := 0, edgeIndex := [], numNodes := 0,
          vidToIdx := [], idxToVid := [], nodeTypes := [],
          edgeIndicesByType := [], nodeFeatures := [] }) := by
  refine ⟨?_, getNodeFeatures_fail, ?_⟩
  · intro vt maxNodes l1 l2 st
    induction l1 generalizing st with
    | nil => simp only [List.nil_append, goProcessHops]
    | cons r rest ih =>
      cases r with
      | none =>
        simp only [List.cons_append, goProcessHops]
        exact ih st
      | some rows =>
        simp only [List.cons_append, goProcessHops]
        by_cases hb : maxNodes ≤ (goProcessRows vt maxNodes rows st).nodes.length
        · simp only [if_pos hb]
        · simp only [if_neg hb]
          exact ih _
  · intro centerVid nHops bidir maxNodes
    unfold sampleSubgraph
    rw [sampledData_failAdapter,
      show failAdapter.fetchProps = (fun _ _ => none) from rfl]
    simp [createEdgeIndex_nil, getNodeFeatures_fail, Registry.empty, alookup]

/-- C9: when sampling discovers no edges, dense indices are assigned to no
vertex at all (the center included): the returned subgraph has
`num_nodes = 0`, empty `vid_to_idx` / `idx_to_vid`, and `center_node_idx`
falls back to the `.get` default 0. -/
theorem sampleSubgraph_no_edges (adapter : Adapter) (centerVid : String)
    (nHops : Nat) (bidir : Bool) (maxNodes : Nat)
    (h : (sampledData adapter centerVid nHops maxNodes).edges = []) :
    (sampleSubgraph adapter centerVid nHops bidir maxNodes).numNodes = 0 ∧
    (sampleSubgraph adapter centerVid nHops bidir maxNodes).idxToVid = [] ∧
    (sampleSubgraph adapter centerVid nHops bidir maxNodes).vidToIdx = [] ∧
    (sampleSubgraph adapter centerVid nHops bidir maxNodes).centerNodeIdx
      = 0 := by
  have heir : createEdgeIndex (sampledData adapter centerVid nHops
      maxNodes).edges bidir Registry.empty =
      { edgeIndex := [], edgeIndicesByType := [], reg := Registry.empty } := by
    rw [h]
    rfl
  refine ⟨?_, ?_, ?_, ?_⟩
  · show (createEdgeIndex (sampledData adapter centerVid nHops
      maxNodes).edges bidir Registry.empty).reg.idxToVid.length = 0
    rw [heir]
    rfl
  · show (createEdgeIndex (sampledData adapter centerVid nHops
      maxNodes).edges bidir Registry.empty).reg.idxToVid = []
    rw [heir]
    rfl
  · show (createEdgeIndex (sampledData adapter centerVid nHops
      maxNodes).edges bidir Registry.empty).reg.vidToIdx = []
    rw [heir]
    rfl
  · show (alookup (createEdgeIndex (sampledData adapter centerVid nHops
      maxNodes).edges bidir Registry.empty).reg.vidToIdx centerVid).getD 0 = 0
    rw [heir]
    rfl

/-- Witness for C9: the all-failing adapter discovers no edges. -/
theorem sampleSubgraph_no_edges_witness :
    (sampleSubgraph failAdapter "player133" 1 true 1000).numNodes = 0 ∧
    (sampleSubgraph failAdapter "player133" 1 true 1000).idxToVid = [] ∧
    (sampleSubgraph failAdapter "player133" 1 true 1000).vidToIdx = [] ∧
    (sampleSubgraph failAdapter "player133" 1 true 1000).centerNodeIdx = 0 :=
  sampleSubgraph_no_edges failAdapter "player133" 1 true 1000 (by decide)

/-! ### Node-budget bound (C1)

The budget check `len(nodes) >= max_nodes` runs only after a discovered row
has been fully recorded, so the edge endpoints — and hence the dense indices
assigned by `_create_edge_index` — can overshoot `max_nodes` by one.  The
chain below bounds `len(idx_to_vid)` by the number of distinct edge
endpoints, and that number by the sampling loops' break discipline. -/

/-- The endpoint vids of a discovered edge list, in order. -/
def edgeEndpoints : List EdgeRow → List String
  | [] => []
  | e :: rest => e.1 :: e.2.1 :: edgeEndpoints rest

/-- Number of distinct edge endpoints. -/
def epc (edges : List EdgeRow) : Nat := (edgeEndpoints edges).toFinset.card

theorem edgeEndpoints_append (l1 l2 : List EdgeRow) :
    edgeEndpoints (l1 ++ l2) = edgeEndpoints l1 ++ edgeEndpoints l2 := by
  induction l1 with
  | nil => rfl
  | cons e rest ih => simp [edgeEndpoints, ih]

theorem epc_append_single (l : List EdgeRow) (e : EdgeRow) :
    epc (l ++ [e]) ≤ epc l + 2 := by
  unfold epc
  rw [edgeEndpoints_append]
  rw [List.toFinset_append]
  refine le_trans (Finset.card_union_le _ _) ?_
  have h2 : (edgeEndpoints [e]).toFinset.card ≤ 2 := by
    refine le_trans (List.toFinset_card_le _) ?_
    simp [edgeEndpoints]
  omega

theorem addToSet_mem_of_mem (s : List String) (v x : String) (h : x ∈ s) :
    x ∈ addToSet s v := by
  unfold addToSet
  by_cases hv : v ∈ s
  · simpa [hv]
  · simp [hv, h]

theorem addToSet_nodup (s : List String) (v : String) (h : s.Nodup) :
    (addToSet s v).Nodup := by
  unfold addToSet
  by_cases hv : v ∈ s
  · simpa [hv]
  · simp [hv, List.nodup_append, h]

/-- Well-formedness of the sampling state: the `nodes` set is duplicate-free
and contains every recorded edge endpoint. -/
def NodesInv (st : SampleState) : Prop :=
  st.nodes.Nodup ∧ ∀ x ∈ edgeEndpoints st.edges, x ∈ st.nodes

theorem epc_le_nodes_length (st : SampleState) (h : NodesInv st) :
    epc st.edges ≤ st.nodes.length := by
  obtain ⟨hnd, hsub⟩ := h
  unfold epc
  have hsubF : (edgeEndpoints st.edges).toFinset ⊆ st.nodes.toFinset := by
    intro x hx
    exact List.mem_toFinset.mpr (hsub x (List.mem_toFinset.mp hx))
  refine le_trans (Finset.card_le_card hsubF) ?_
  rw [List.card_toFinset, List.Nodup.dedup hnd]

/-- Registry well-formedness: `_idx_to_vid_map` is duplicate-free and every
vid in it is indexed by `_vid_to_idx_map`. -/
def RegInv (reg : Registry) : Prop :=
  reg.idxToVid.Nodup ∧
    ∀ x ∈ reg.idxToVid, (alookup reg.vidToIdx x).isSome

theorem alookup_append_of_some {α β : Type} [DecidableEq α]
    (l l' : List (α × β)) (k : α) (v : β) (h : alookup l k = some v) :
    alookup (l ++ l') k = some v := by
  induction l with
  | nil => cases h
  | cons p rest ih =>
    obtain ⟨k0, w⟩ := p
    by_cases hk : k0 = k
    · subst hk
      simp only [alookup, if_pos rfl] at h
      simpa [alookup] using h
    · simp only [alookup, if_neg hk] at h
      simpa [alookup, hk] using ih h

theorem getVidIdx_regInv (reg : Registry) (v : String) (h : RegInv reg) :
    RegInv (getVidIdx reg v).2 := by
  obtain ⟨hnd, hidx⟩ := h
  unfold getVidIdx
  cases hl : alookup reg.vidToIdx v with
  | some i => exact ⟨hnd, hidx⟩
  | none =>
    constructor
    · have hv : v ∉ reg.idxToVid := by
        intro hmem
        have := hidx v hmem
        rw [hl] at this
        cases this
      simp [List.nodup_append, hnd, hv]
    · intro x hx
      rcases List.mem_append.mp hx with hx' | hx'
      · cases hs : alookup reg.vidToIdx x with
        | some i =>
          rw [alookup_append_of_some _ _ _ _ hs]
          rfl
        | none =>
          have := hidx x hx'
          rw [hs] at this
          cases this
      · have hxv : x = v := by simpa using hx'
        subst hxv
        rw [alookup_append_single_self _ _ _ hl]
        rfl

theorem getVidIdx_idxToVid_mem (reg : Registry) (v x : String)
    (h : x ∈ (getVidIdx reg v).2.idxToVid) :
    x ∈ reg.idxToVid ∨ x = v := by
  unfold getVidIdx at h
  cases hl : alookup reg.vidToIdx v with
  | some i =>
    rw [hl] at h
    exact Or.inl h
  | none =>
    rw [hl] at h
    rcases List.mem_append.mp h with h' | h'
    · exact Or.inl h'
    · exact Or.inr (by simpa using h')

theorem createEdgeIndex_fold_reg (bidir : Bool) (edges : List EdgeRow) :
    ∀ (acc : List (String × List (Nat × Nat)) × Registry), RegInv acc.2 →
      RegInv (edges.foldl (createEdgeIndexStep bidir) acc).2 ∧
      ∀ x ∈ (edges.foldl (createEdgeIndexStep bidir) acc).2.idxToVid,
        x ∈ acc.2.idxToVid ∨ x ∈ edgeEndpoints edges := by
  induction edges with
  | nil =>
    intro acc hacc
    exact ⟨hacc, fun x hx => Or.inl hx⟩
  | cons e rest ih =>
    intro acc hacc
    rw [List.foldl_cons]
    obtain ⟨u, v, t⟩ := e
    obtain ⟨byType, reg⟩ := acc
    have hstep2 : (createEdgeIndexStep bidir (byType, reg) (u, v, t)).2 =
        (getVidIdx (getVidIdx reg u).2 v).2 := rfl
    have hregInv : RegInv (createEdgeIndexStep bidir (byType, reg)
        (u, v, t)).2 := by
      rw [hstep2]
      exact getVidIdx_regInv _ _ (getVidIdx_regInv _ _ hacc)
    obtain ⟨hres, hsub⟩ := ih _ hregInv
    refine ⟨hres, fun x hx => ?_⟩
    rcases hsub x hx with hx' | hx'
    · rw [hstep2] at hx'
      rcases getVidIdx_idxToVid_mem _ _ _ hx' with hx'' | hx''
      · rcases getVidIdx_idxToVid_mem _ _ _ hx'' with hx3 | hx3
        · exact Or.inl hx3
        · exact Or.inr (by simp [edgeEndpoints, hx3])
      · exact Or.inr (by simp [edgeEndpoints, hx''])
    · exact Or.inr (by simp [edgeEndpoints, hx'])

/-- The registry built by `_create_edge_index` indexes at most the distinct
edge endpoints. -/
theorem createEdgeIndex_idxToVid_le_epc (edges : List EdgeRow)
    (bidir : Bool) :
    (createEdgeIndex edges bidir Registry.empty).reg.idxToVid.length ≤
      epc edges := by
  by_cases he : edges = []
  · subst he
    rw [createEdgeIndex_nil]
    exact Nat.zero_le _
  · have heq : (createEdgeIndex edges bidir Registry.empty).reg =
        (edges.foldl (createEdgeIndexStep bidir) ([], Registry.empty)).2 := by
      unfold createEdgeIndex
      rw [if_neg he]
    rw [heq]
    have hinit : RegInv Registry.empty := by
      constructor
      · exact List.nodup_nil
      · intro x hx
        cases hx
    obtain ⟨⟨hnd, _⟩, hsub⟩ := createEdgeIndex_fold_reg bidir edges
      ([], Registry.empty) hinit
    have hsub' : ∀ x ∈ (edges.foldl (createEdgeIndexStep bidir)
        ([], Registry.empty)).2.idxToVid, x ∈ edgeEndpoints edges := by
      intro x hx
      rcases hsub x hx with hx' | hx'
      · cases hx'
      · exact hx'
    calc (edges.foldl (createEdgeIndexStep bidir)
          ([], Registry.empty)).2.idxToVid.length
        = (edges.foldl (createEdgeIndexStep bidir)
          ([], Registry.empty)).2.idxToVid.toFinset.card := by
          rw [List.card_toFinset, List.Nodup.dedup hnd]
      _ ≤ (edgeEndpoints edges).toFinset.card := by
          refine Finset.card_le_card ?_
          intro x hx
          exact List.mem_toFinset.mpr (hsub' x (List.mem_toFinset.mp hx))
      _ = epc edges := rfl

theorem goProcessRow_nodes (vt : String → Option String) (st : SampleState)
    (src dst t : String) :
    (goProcessRow vt st (src, dst, t)).nodes =
      addToSet (addToSet st.nodes src) dst := rfl

theorem goProcessRow_edges (vt : String → Option String) (st : SampleState)
    (src dst t : String) :
    (goProcessRow vt st (src, dst, t)).edges =
      st.edges ++ [(src, dst, t)] := rfl

theorem goProcessRow_inv (vt : String → Option String) (st : SampleState)
    (row : EdgeRow) (h : NodesInv st) :
    NodesInv (goProcessRow vt st row) ∧
      epc (goProcessRow vt st row).edges ≤ epc st.edges + 2 := by
  obtain ⟨src, dst, t⟩ := row
  obtain ⟨hnd, hsub⟩ := h
  refine ⟨⟨?_, ?_⟩, ?_⟩
  · rw [goProcessRow_nodes]
    exact addToSet_nodup _ _ (addToSet_nodup _ _ hnd)
  · rw [goProcessRow_nodes, goProcessRow_edges]
    intro x hx
    rw [edgeEndpoints_append] at hx
    rcases List.mem_append.mp hx with hx' | hx'
    · exact addToSet_mem_of_mem _ _ _ (addToSet_mem_of_mem _ _ _ (hsub x hx'))
    · rcases List.mem_cons.mp hx' with rfl | hx''
      · exact addToSet_mem_of_mem _ _ _ (mem_addToSet_self _ _)
      · have hxd : x = dst := by simpa [edgeEndpoints] using hx''
        subst hxd
        exact mem_addToSet_self _ _
  · rw [goProcessRow_edges]
    exact epc_append_single _ _

theorem goProcessRows_bound (vt : String → Option String) (m : Nat) :
    ∀ (rows : List EdgeRow) (st : SampleState), NodesInv st →
      NodesInv (goProcessRows vt m rows st) ∧
        epc (goProcessRows vt m rows st).edges ≤
          max (epc st.edges + 2) (m + 1) := by
  intro rows
  induction rows with
  | nil =>
    intro st h
    exact ⟨h, le_trans (Nat.le_add_right _ 2) (Nat.le_max_left _ _)⟩
  | cons row rest ih =>
    intro st h
    obtain ⟨hinv', hepc'⟩ := goProcessRow_inv vt st row h
    simp only [goProcessRows]
    by_cases hb : m ≤ (goProcessRow vt st row).nodes.length
    · rw [if_pos hb]
      exact ⟨hinv', le_trans hepc' (Nat.le_max_left _ _)⟩
    · rw [if_neg hb]
      obtain ⟨hres, hbound⟩ := ih _ hinv'
      refine ⟨hres, le_trans hbound ?_⟩
      have hlen := epc_le_nodes_length _ hinv'
      have hlt : (goProcessRow vt st row).nodes.length < m := Nat.lt_of_not_le hb
      refine le_trans (max_le (by omega) (le_refl _)) (Nat.le_max_right _ _)

theorem goProcessHops_bound (vt : String → Option String) (m : Nat) :
    ∀ (l : List (Option (List EdgeRow))) (st : SampleState), NodesInv st →
      NodesInv (goProcessHops vt m l st) ∧
        epc (goProcessHops vt m l st).edges ≤
          max (epc st.edges + 2) (m + 1) := by
  intro l
  induction l with
  | nil =>
    intro st h
    exact ⟨h, le_trans (Nat.le_add_right _ 2) (Nat.le_max_left _ _)⟩
  | cons resp rest ih =>
    intro st h
    cases resp with
    | none =>
      simp only [goProcessHops]
      exact ih st h
    | some rows =>
      simp only [goProcessHops]
      obtain ⟨hinv', hepc'⟩ := goProcessRows_bound vt m rows st h
      by_cases hb : m ≤ (goProcessRows vt m rows st).nodes.length
      · rw [if_pos hb]
        exact ⟨hinv', hepc'⟩
      · rw [if_neg hb]
        obtain ⟨hres, hbound⟩ := ih _ hinv'
        refine ⟨hres, le_trans hbound ?_⟩
        have hlen := epc_le_nodes_length _ hinv'
        have hlt : (goProcessRows vt m rows st).nodes.length < m :=
          Nat.lt_of_not_le hb
        refine le_trans (max_le (by omega) (le_refl _)) (Nat.le_max_right _ _)

theorem bulkProcessRows_bound (m : Nat) :
    ∀ (rows : List BulkRow) (st : SampleState), NodesInv st →
      NodesInv (bulkProcessRows m rows st) ∧
        epc (bulkProcessRows m rows st).edges ≤
          max (epc st.edges + 2) (m + 1) := by
  intro rows
  induction rows with
  | nil =>
    intro st h
    exact ⟨h, le_trans (Nat.le_add_right _ 2) (Nat.le_max_left _ _)⟩
  | cons row rest ih =>
    intro st h
    obtain ⟨vpart, epart⟩ := row
    -- state after the vertex part of the row
    have hst1 : ∃ st1 : SampleState,
        (match vpart with
          | some (vid, tag) =>
            { st with nodes := addToSet st.nodes vid,
                      nodeTypes := aset st.nodeTypes vid tag }
          | none => st) = st1 ∧
        NodesInv st1 ∧ st1.edges = st.edges := by
      cases vpart with
      | none => exact ⟨st, rfl, h, rfl⟩
      | some p =>
        obtain ⟨vid, tag⟩ := p
        refine ⟨_, rfl, ⟨addToSet_nodup _ _ h.1, ?_⟩, rfl⟩
        intro x hx
        exact addToSet_mem_of_mem _ _ _ (h.2 x hx)
    obtain ⟨st1, hst1eq, hinv1, hedges1⟩ := hst1
    have hst2 : ∃ st2 : SampleState,
        (match epart with
          | some (src, dst, edgeType) =>
            { st1 with nodes := addToSet (addToSet st1.nodes src) dst,
                       edges := st1.edges ++ [(src, dst, edgeType)] }
          | none => st1) = st2 ∧
        NodesInv st2 ∧ epc st2.edges ≤ epc st.edges + 2 := by
      cases epart with
      | none =>
        refine ⟨st1, rfl, hinv1, ?_⟩
        rw [hedges1]
        exact Nat.le_add_right _ 2
      | some e =>
        obtain ⟨src, dst, t⟩ := e
        refine ⟨_, rfl, ⟨addToSet_nodup _ _ (addToSet_nodup _ _ hinv1.1), ?_⟩,
          ?_⟩
        · intro x hx
          simp only [edgeEndpoints_append] at hx
          rcases List.mem_append.mp hx with hx' | hx'
          · exact addToSet_mem_of_mem _ _ _
              (addToSet_mem_of_mem _ _ _ (hinv1.2 x hx'))
          · rcases List.mem_cons.mp hx' with rfl | hx''
            · exact addToSet_mem_of_mem _ _ _ (mem_addToSet_self _ _)
            · have hxd : x = dst := by simpa [edgeEndpoints] using hx''
              subst hxd
              exact mem_addToSet_self _ _
        · rw [hedges1] at *
          exact epc_append_single _ _
    obtain ⟨st2, hst2eq, hinv2, hepc2⟩ := hst2
    simp only [bulkProcessRows, hst1eq, hst2eq]
    by_cases hb : m ≤ st2.nodes.length
    · rw [if_pos hb]
      exact ⟨hinv2, le_trans hepc2 (Nat.le_max_left _ _)⟩
    · rw [if_neg hb]
      obtain ⟨hres, hbound⟩ := ih _ hinv2
      refine ⟨hres, le_trans hbound ?_⟩
      have hlen := epc_le_nodes_length _ hinv2
      have hlt : st2.nodes.length < m := Nat.lt_of_not_le hb
      refine le_trans (max_le (by omega) (le_refl _)) (Nat.le_max_right _ _)

theorem sampledData_epc_le (adapter : Adapter) (centerVid : String)
    (nHops maxNodes : Nat) :
    epc (sampledData adapter centerVid nHops maxNodes).edges ≤
      max 2 (maxNodes + 1) := by
  have hepc0 : epc ([] : List EdgeRow) = 0 := rfl
  unfold sampledData
  by_cases h : nHops ≤ 2
  · rw [if_pos h]
    unfold getSubgraphUsingGo
    have hinv0 : NodesInv
        { nodes := [centerVid], edges := [],
          nodeTypes :=
            match adapter.vertexType centerVid with
            | some ty => [(centerVid, ty)]
            | none => [] } := by
      constructor
      · exact List.nodup_singleton _
      · intro x hx
        cases hx
    have := (goProcessHops_bound adapter.vertexType maxNodes
      ((List.range nHops).map (fun hh => adapter.hopRows centerVid (hh + 1)))
      _ hinv0).2
    rw [hepc0] at this
    simpa using this
  · rw [if_neg h]
    unfold getSubgraphUsingSubgraph
    cases hb : adapter.bulkRows centerVid nHops with
    | none =>
      rw [hepc0]
      exact Nat.zero_le _
    | some rows =>
      have hinv0 : NodesInv
          { nodes := [centerVid], edges := [], nodeTypes := [] } := by
        constructor
        · exact List.nodup_singleton _
        · intro x hx
          cases hx
      have := (bulkProcessRows_bound maxNodes rows _ hinv0).2
      rw [hepc0] at this
      simpa using this

/-- C1 (amended): for every adapter behaviour,
`len(idx_to_vid) <= max(2, max_nodes + 1)`.  The original bound
`len(idx_to_vid) <= max_nodes` fails (see the counterexample): the budget
check runs only after a discovered row is recorded, so the last row may push
the endpoint count one past `max_nodes`. -/
theorem sampleSubgraph_idxToVid_le (adapter : Adapter) (centerVid : String)
    (nHops : Nat) (bidir : Bool) (maxNodes : Nat) :
    (sampleSubgraph adapter centerVid nHops bidir maxNodes).idxToVid.length ≤
      max 2 (maxNodes + 1) := by
  show (createEdgeIndex (sampledData adapter centerVid nHops maxNodes).edges
      bidir Registry.empty).reg.idxToVid.length ≤ max 2 (maxNodes + 1)
  exact le_trans (createEdgeIndex_idxToVid_le_epc _ _)
    (sampledData_epc_le adapter centerVid nHops maxNodes)

/-- An adapter on which the sampler overshoots the node budget: hop 1
discovers `c -> a`, hop 2 discovers the detached edge `b -> d`, so with
`max_nodes = 3` the budget break fires only after 4 distinct endpoints are
already recorded. -/
def overBudgetAdapter : Adapter :=
  { vertexType := fun _ => none,
    hopRows := fun _ hop =>
      if hop = 1 then some [("c", "a", "t1")]
      else if hop = 2 then some [("b", "d", "t1")]
      else some [],
    bulkRows := fun _ _ => none,
    fetchProps := fun _ _ => none }

/-- Counterexample to C1 as stated: a `sample_subgraph` call with
`max_nodes = 3` whose result has `len(idx_to_vid) = 4 > 3`. -/
theorem sampleSubgraph_idxToVid_gt_maxNodes :
    (sampleSubgraph overBudgetAdapter "c" 2 true 3).idxToVid.length = 4 ∧
    ¬ ((sampleSubgraph overBudgetAdapter "c" 2 true
        3).idxToVid.length ≤ 3) := by
  decide

/-! ### Fuel-indexed BFS loop

`bfsLoop` is defined by well-founded recursion, which the kernel cannot
evaluate on concrete inputs.  `bfsLoopFuel` is the same loop indexed by a
fuel counter; `bfsLoop_eq_fuel` shows any fuel above the frontier potential
yields the well-founded loop, so concrete runs can be computed and loop
invariants can be proved by plain structural induction. -/

def bfsLoopFuel (adj : List (Nat × List Nat)) (idxToVid : List String)
    (endIdx maxHops : Nat) :
    Nat → List (Nat × List String) → List Nat → List (List String) →
      List (List String)
  | 0, _, _, paths => paths
  | _ + 1, [], _, paths => paths
  | fuel + 1, (cur, path) :: rest, visited, paths =>
    if 5 ≤ paths.length then paths
    else if maxHops + 1 < path.length then
      bfsLoopFuel adj idxToVid endIdx maxHops fuel rest visited paths
    else if cur = endIdx then
      bfsLoopFuel adj idxToVid endIdx maxHops fuel rest visited
        (paths ++ [path])
    else
      let out := expand idxToVid path ((alookup adj cur).getD []) visited
      bfsLoopFuel adj idxToVid endIdx maxHops fuel (rest ++ out.1) out.2 paths

theorem bfsLoop_eq_fuel (adj : List (Nat × List Nat)) (idxToVid : List String)
    (endIdx maxHops : Nat) :
    ∀ (fuel : Nat) (queue : List (Nat × List String)) (visited : List Nat)
      (paths : List (List String)),
      queuePot (adjBound adj) maxHops queue < fuel →
      bfsLoopFuel adj idxToVid endIdx maxHops fuel queue visited paths =
        bfsLoop adj idxToVid endIdx maxHops queue visited paths := by
  intro fuel
  induction fuel with
  | zero =>
    intro queue visited paths h
    cases h
  | succ fuel ih =>
    intro queue visited paths h
    match queue with
    | [] => simp only [bfsLoopFuel, bfsLoop]
    | (cur, path) :: rest =>
      simp only [bfsLoopFuel, bfsLoop]
      by_cases h5 : 5 ≤ paths.length
      · rw [if_pos h5, if_pos h5]
      · rw [if_neg h5, if_neg h5]
        by_cases hlen : maxHops + 1 < path.length
        · rw [if_pos hlen, if_pos hlen]
          refine ih rest visited paths ?_
          have := queuePot_tail_lt (adjBound adj) maxHops (cur, path) rest
          omega
        · rw [if_neg hlen, if_neg hlen]
          by_cases hend : cur = endIdx
          · rw [if_pos hend, if_pos hend]
            refine ih rest visited (paths ++ [path]) ?_
            have := queuePot_tail_lt (adjBound adj) maxHops (cur, path) rest
            omega
          · rw [if_neg hend, if_neg hend]
            refine ih _ _ paths ?_
            have := queuePot_expand_lt (adjBound adj) maxHops cur path rest
              (expand idxToVid path ((alookup adj cur).getD []) visited).1
              (by omega)
              (le_trans (expand_fst_length_le _ _ _ _)
                (alookup_length_le_adjBound _ _))
              (expand_fst_path_length _ _ _ _)
            omega

theorem bfsLoop_eq_fuel_succ (adj : List (Nat × List Nat))
    (idxToVid : List String) (endIdx maxHops : Nat)
    (queue : List (Nat × List String)) (visited : List Nat)
    (paths : List (List String)) :
    bfsLoop adj idxToVid endIdx maxHops queue visited paths =
      bfsLoopFuel adj idxToVid endIdx maxHops
        (queuePot (adjBound adj) maxHops queue + 1) queue visited paths :=
  (bfsLoop_eq_fuel adj idxToVid endIdx maxHops _ queue visited paths
    (Nat.lt_succ_self _)).symm

theorem bfsLoopFuel_paths_le (adj : List (Nat × List Nat))
    (idxToVid : List String) (endIdx maxHops : Nat) :
    ∀ (fuel : Nat) (queue : List (Nat × List String)) (visited : List Nat)
      (paths : List (List String)), paths.length ≤ 5 →
      (bfsLoopFuel adj idxToVid endIdx maxHops fuel queue visited
        paths).length ≤ 5 := by
  intro fuel
  induction fuel with
  | zero =>
    intro queue visited paths h
    exact h
  | succ fuel ih =>
    intro queue visited paths h
    match queue with
    | [] => exact h
    | (cur, path) :: rest =>
      rw [bfsLoopFuel]
      by_cases h5 : 5 ≤ paths.length
      · rw [if_pos h5]
        exact h
      · rw [if_neg h5]
        by_cases hlen : maxHops + 1 < path.length
        · rw [if_pos hlen]
          exact ih rest visited paths h
        · rw [if_neg hlen]
          by_cases hend : cur = endIdx
          · rw [if_pos hend]
            refine ih rest visited (paths ++ [path]) ?_
            simp only [List.length_append, List.length_singleton]
            omega
          · rw [if_neg hend]
            exact ih _ _ paths h

/-- C5: `find_paths_bfs` always terminates — it is realized below as a total
function, its loop defined by well-founded recursion on the frontier
potential `queuePot`, for every finite subgraph and every `max_hops` — and
its result list never holds more than 5 paths. -/
theorem findPathsBFS_length_le (sg : Subgraph) (startEntity endEntity : String)
    (maxHops : Nat) :
    (findPathsBFS sg startEntity endEntity maxHops).length ≤ 5 := by
  unfold findPathsBFS
  cases hs : alookup sg.vidToIdx startEntity with
  | none => simp
  | some startIdx =>
    cases he : alookup sg.vidToIdx endEntity with
    | none => simp
    | some endIdx =>
      simp only
      rw [bfsLoop_eq_fuel_succ]
      exact bfsLoopFuel_paths_le _ _ _ _ _ _ _ _ (by simp)

/-! ### Path-length bound (C3) -/

theorem bfsLoopFuel_path_length (adj : List (Nat × List Nat))
    (idxToVid : List String) (endIdx maxHops : Nat) :
    ∀ (fuel : Nat) (queue : List (Nat × List String)) (visited : List Nat)
      (paths : List (List String)),
      (∀ p ∈ paths, p.length ≤ maxHops + 1) →
      ∀ p ∈ bfsLoopFuel adj idxToVid endIdx maxHops fuel queue visited paths,
        p.length ≤ maxHops + 1 := by
  intro fuel
  induction fuel with
  | zero =>
    intro queue visited paths h
    exact h
  | succ fuel ih =>
    intro queue visited paths h
    match queue with
    | [] => exact h
    | (cur, path) :: rest =>
      rw [bfsLoopFuel]
      by_cases h5 : 5 ≤ paths.length
      · rw [if_pos h5]
        exact h
      · rw [if_neg h5]
        by_cases hlen : maxHops + 1 < path.length
        · rw [if_pos hlen]
          exact ih rest visited paths h
        · rw [if_neg hlen]
          by_cases hend : cur = endIdx
          · rw [if_pos hend]
            refine ih rest visited (paths ++ [path]) ?_
            intro p hp
            rcases List.mem_append.mp hp with hp' | hp'
            · exact h p hp'
            · have : p = path := by simpa using hp'
              subst this
              omega
          · rw [if_neg hend]
            exact ih _ _ paths h

/-- A computable realization of `find_paths_bfs`: the same BFS with fuel one
above the initial frontier potential, so the kernel can evaluate concrete
runs.  `findPathsBFS_eq_fuel` identifies it with `findPathsBFS`. -/
def findPathsBFSFuel (sg : Subgraph) (startEntity endEntity : String)
    (maxHops : Nat) : List (List String) :=
  match alookup sg.vidToIdx startEntity, alookup sg.vidToIdx endEntity with
  | some startIdx, some endIdx =>
    bfsLoopFuel (buildAdjList sg.edgeIndex) sg.idxToVid endIdx maxHops
      (queuePot (adjBound (buildAdjList sg.edgeIndex)) maxHops
        [(startIdx, [startEntity])] + 1)
      [(startIdx, [startEntity])] [startIdx] []
  | _, _ => []

theorem findPathsBFS_eq_fuel (sg : Subgraph) (startEntity endEntity : String)
    (maxHops : Nat) :
    findPathsBFS sg startEntity endEntity maxHops =
      findPathsBFSFuel sg startEntity endEntity maxHops := by
  unfold findPathsBFS findPathsBFSFuel
  cases hs : alookup sg.vidToIdx startEntity with
  | none => rfl
  | some startIdx =>
    cases he : alookup sg.vidToIdx endEntity with
    | none => rfl
    | some endIdx =>
      simp only
      exact bfsLoop_eq_fuel_succ _ _ _ _ _ _ _

theorem findPathsBFS_path_length (sg : Subgraph)
    (startEntity endEntity : String) (maxHops : Nat) :
    ∀ p ∈ findPathsBFS sg startEntity endEntity maxHops,
      p.length ≤ maxHops + 1 := by
  unfold findPathsBFS
  cases hs : alookup sg.vidToIdx startEntity with
  | none => simp
  | some startIdx =>
    cases he : alookup sg.vidToIdx endEntity with
    | none => simp
    | some endIdx =>
      simp only
      rw [bfsLoop_eq_fuel_succ]
      exact bfsLoopFuel_path_length _ _ _ _ _ _ _ _ (by simp)

theorem mem_foldl_append {α β : Type} (f : α → List β) (l : List α)
    (init : List β) (p : β)
    (h : p ∈ l.foldl (fun acc x => acc ++ f x) init) :
    p ∈ init ∨ ∃ x ∈ l, p ∈ f x := by
  induction l generalizing init with
  | nil => exact Or.inl h
  | cons x rest ih =>
    rw [List.foldl_cons] at h
    rcases ih _ h with h' | ⟨y, hy, hpy⟩
    · rcases List.mem_append.mp h' with h'' | h''
      · exact Or.inl h''
      · exact Or.inr ⟨x, List.mem_cons_self _ _, h''⟩
    · exact Or.inr ⟨y, List.mem_cons_of_mem _ hy, hpy⟩

/-- C3: every path returned by `find_paths_bfs(subgraph, start, end,
max_hops)` has at most `max_hops + 1` vertices, and every path in the
`paths` list of a `find_multihop_relationships(a, b, max_hops)` result —
direct or bridge-concatenated — also has at most `max_hops + 1` vertices. -/
theorem paths_length_le_maxHops_succ :
    (∀ (sg : Subgraph) (startEntity endEntity : String) (maxHops : Nat)
      (p : List String), p ∈ findPathsBFS sg startEntity endEntity maxHops →
        p.length ≤ maxHops + 1) ∧
    (∀ (adapter : Adapter) (entityA entityB : String) (maxHops : Nat)
      (p : List String),
      p ∈ (findMultihopRelationships adapter entityA entityB maxHops).paths →
        p.length ≤ maxHops + 1) := by
  refine ⟨fun sg s e m p hp => findPathsBFS_path_length sg s e m p hp, ?_⟩
  intro adapter entityA entityB maxHops p hp
  rw [findMultihopRelationships] at hp
  by_cases hd : (alookup (sampleSubgraph adapter entityA maxHops true
      500).vidToIdx entityB).isSome = true
  · rw [if_pos hd] at hp
    exact findPathsBFS_path_length _ _ _ _ p hp
  · rw [if_neg hd] at hp
    by_cases hi : (((sampleSubgraph adapter entityA maxHops true
        500).vidToIdx.map (·.1)).filter
          (· ∈ (sampleSubgraph adapter entityB (maxHops / 2) true
            500).vidToIdx.map (·.1))).isEmpty = true
    · rw [if_pos hi] at hp
      cases hp
    · rw [if_neg hi] at hp
      simp only at hp
      have hp' := List.take_subset 5 _ hp
      have := mem_foldl_append
        (fun bridgeNode =>
          (((findPathsBFS (sampleSubgraph adapter entityA maxHops true 500)
              entityA bridgeNode (maxHops / 2)).take 2).map
            (fun pa =>
              ((findPathsBFS (sampleSubgraph adapter entityB (maxHops / 2)
                  true 500) bridgeNode entityB (maxHops / 2)).take 2).map
                (fun pb => pa ++ pb.drop 1))).flatten)
        ((((sampleSubgraph adapter entityA maxHops true 500).vidToIdx.map
          (·.1)).filter
            (· ∈ (sampleSubgraph adapter entityB (maxHops / 2) true
              500).vidToIdx.map (·.1))).take 3)
        [] p hp'
      rcases this with h0 | ⟨bridgeNode, _, hpf⟩
      · cases h0
      · rcases List.mem_flatten.mp hpf with ⟨inner, hinner, hpinner⟩
        rcases List.mem_map.mp hinner with ⟨pa, hpa, rfl⟩
        rcases List.mem_map.mp hpinner with ⟨pb, hpb, rfl⟩
        have hpaLen : pa.length ≤ maxHops / 2 + 1 :=
          findPathsBFS_path_length _ _ _ _ pa (List.take_subset 2 _ hpa)
        have hpbLen : pb.length ≤ maxHops / 2 + 1 :=
          findPathsBFS_path_length _ _ _ _ pb (List.take_subset 2 _ hpb)
        simp only [List.length_append, List.length_drop]
        omega

/-- Witness for C3: a concrete 2-vertex path returned on the one-edge
adapter, within the `max_hops + 1` bound. -/
theorem paths_length_le_maxHops_succ_witness :
    (["player100", "team204"] : List String) ∈
      findPathsBFS (sampleSubgraph oneEdgeAdapter "player100" 1 true 1000)
        "player100" "team204" 2 ∧
    (["player100", "team204"] : List String).length ≤ 2 + 1 := by
  have hm : (["player100", "team204"] : List String) ∈
      findPathsBFS (sampleSubgraph oneEdgeAdapter "player100" 1 true 1000)
        "player100" "team204" 2 := by
    rw [findPathsBFS_eq_fuel]
    decide
  exact ⟨hm, paths_length_le_maxHops_succ.1 _ _ _ _ _ hm⟩

/-! ### BFS revisit policy (C4) -/

theorem mem_addIdxToSet (s : List Nat) (v x : Nat) :
    x ∈ addIdxToSet s v ↔ x ∈ s ∨ x = v := by
  unfold addIdxToSet
  by_cases h : v ∈ s
  · rw [if_pos h]
    constructor
    · exact Or.inl
    · rintro (hx | rfl)
      · exact hx
      · exact h
  · rw [if_neg h]
    simp

theorem expand_visited_grows (idxToVid : List String) (path : List String)
    (nbrs : List Nat) (visited : List Nat) (x : Nat) (hx : x ∈ visited) :
    x ∈ (expand idxToVid path nbrs visited).2 := by
  induction nbrs generalizing visited with
  | nil => exact hx
  | cons n rest ih =>
    by_cases hg : n ∉ visited ∨ path.length ≤ 2
    · simp only [expand, if_pos hg]
      refine ih _ ?_
      by_cases hlen : 2 < path.length
      · rw [if_pos hlen]
        exact (mem_addIdxToSet _ _ _).mpr (Or.inl hx)
      · rw [if_neg hlen]
        exact hx
    · simp only [expand, if_neg hg]
      exact ih _ hx

/-- C4: the neighbor-expansion policy of `find_paths_bfs`, exactly as coded:
(1) a neighbor that is unvisited, or popped from a path of at most 2
vertices, is enqueued; (2) conversely every enqueued entry is a listed
neighbor satisfying that guard, carrying the popped path extended by the
neighbor's vid; (3) with a path of at most 2 vertices the visited set is
unchanged; (4) with a path of more than 2 vertices every enqueued neighbor
index is marked visited in the resulting set (so continuations, whose paths
exceed 2 vertices, can never enqueue it again); (5) the visited set only
grows. -/
theorem expand_enqueue_policy :
    (∀ (idxToVid : List String) (path : List String) (nbrs visited : List Nat)
      (n : Nat), n ∈ nbrs → (n ∉ visited ∨ path.length ≤ 2) →
      ∃ e ∈ (expand idxToVid path nbrs visited).1, e.1 = n) ∧
    (∀ (idxToVid : List String) (path : List String) (nbrs visited : List Nat)
      (e : Nat × List String), e ∈ (expand idxToVid path nbrs visited).1 →
      e.1 ∈ nbrs ∧ (e.1 ∉ visited ∨ path.length ≤ 2) ∧
        e.2 = path ++ [idxToVid.getD e.1 ""]) ∧
    (∀ (idxToVid : List String) (path : List String)
      (nbrs visited : List Nat), path.length ≤ 2 →
      (expand idxToVid path nbrs visited).2 = visited) ∧
    (∀ (idxToVid : List String) (path : List String)
      (nbrs visited : List Nat), 2 < path.length →
      ∀ e ∈ (expand idxToVid path nbrs visited).1,
        e.1 ∈ (expand idxToVid path nbrs visited).2) ∧
    (∀ (idxToVid : List String) (path : List String)
      (nbrs visited : List Nat) (x : Nat), x ∈ visited →
      x ∈ (expand idxToVid path nbrs visited).2) := by
  refine ⟨?_, ?_, ?_, ?_, expand_visited_grows⟩
  · intro idxToVid path nbrs
    induction nbrs with
    | nil =>
      intro visited n hn
      cases hn
    | cons n' rest ih =>
      intro visited n hn hguard
      by_cases heq : n = n'
      · subst heq
        have hg : n ∉ visited ∨ path.length ≤ 2 := hguard
        simp only [expand, if_pos hg]
        exact ⟨(n, path ++ [idxToVid.getD n ""]), List.mem_cons_self _ _, rfl⟩
      · have hn' : n ∈ rest := by
          rcases List.mem_cons.mp hn with h | h
          · exact (heq h).elim
          · exact h
        by_cases hg : n' ∉ visited ∨ path.length ≤ 2
        · simp only [expand, if_pos hg]
          have hguard' : n ∉ (if 2 < path.length then addIdxToSet visited n'
              else visited) ∨ path.length ≤ 2 := by
            rcases hguard with hnv | hlen
            · by_cases hlen : 2 < path.length
              · rw [if_pos hlen]
                refine Or.inl ?_
                intro hmem
                rcases (mem_addIdxToSet _ _ _).mp hmem with h | h
                · exact hnv h
                · exact heq h
              · rw [if_neg hlen]
                exact Or.inl hnv
            · exact Or.inr hlen
          obtain ⟨e, he, hefst⟩ := ih _ n hn' hguard'
          exact ⟨e, List.mem_cons_of_mem _ he, hefst⟩
        · simp only [expand, if_neg hg]
          exact ih _ n hn' hguard
  · intro idxToVid path nbrs
    induction nbrs with
    | nil =>
      intro visited e he
      simp [expand] at he
    | cons n' rest ih =>
      intro visited e he
      by_cases hg : n' ∉ visited ∨ path.length ≤ 2
      · simp only [expand, if_pos hg] at he
        rcases List.mem_cons.mp he with rfl | he'
        · exact ⟨List.mem_cons_self _ _, hg, rfl⟩
        · obtain ⟨hmem, hguard, hpath⟩ := ih _ e he'
          refine ⟨List.mem_cons_of_mem _ hmem, ?_, hpath⟩
          rcases hguard with hnv | hlen
          · refine Or.inl ?_
            intro hev
            refine hnv ?_
            by_cases hlen : 2 < path.length
            · rw [if_pos hlen]
              exact (mem_addIdxToSet _ _ _).mpr (Or.inl hev)
            · rw [if_neg hlen]
              exact hev
          · exact Or.inr hlen
      · simp only [expand, if_neg hg] at he
        obtain ⟨hmem, hguard, hpath⟩ := ih _ e he
        exact ⟨List.mem_cons_of_mem _ hmem, hguard, hpath⟩
  · intro idxToVid path nbrs
    induction nbrs with
    | nil =>
      intro visited _
      rfl
    | cons n' rest ih =>
      intro visited hlen
      have hg : n' ∉ visited ∨ path.length ≤ 2 := Or.inr hlen
      simp only [expand, if_pos hg]
      rw [if_neg (by omega : ¬2 < path.length)]
      exact ih _ hlen
  · intro idxToVid path nbrs
    induction nbrs with
    | nil =>
      intro visited _ e he
      simp [expand] at he
    | cons n' rest ih =>
      intro visited hlen e he
      by_cases hg : n' ∉ visited ∨ path.length ≤ 2
      · simp only [expand, if_pos hg] at he ⊢
        rcases List.mem_cons.mp he with rfl | he'
        · refine expand_visited_grows _ _ _ _ _ ?_
          rw [if_pos hlen]
          exact (mem_addIdxToSet _ _ _).mpr (Or.inr rfl)
        · exact ih _ hlen e he'
      · simp only [expand, if_neg hg] at he ⊢
        exact ih _ hlen e he

/-- Witness for C4: concrete instances of the enqueue guard, the no-marking
rule for short paths, and the marking rule for long paths. -/
theorem expand_enqueue_policy_witness :
    (∃ e ∈ (expand ["v0", "v1"] ["v0"] [1] []).1, e.1 = 1) ∧
    (expand ["v0", "v1"] ["v0", "v1"] [0] [0]).2 = [0] ∧
    (7 : Nat) ∈ (expand ["a", "b", "c"] ["a", "b", "c"] [7] []).2 := by
  refine ⟨expand_enqueue_policy.1 ["v0", "v1"] ["v0"] [1] [] 1
      (by decide) (by decide), ?_, ?_⟩
  · exact expand_enqueue_policy.2.2.1 ["v0", "v1"] ["v0", "v1"] [0] [0]
      (by decide)
  · refine expand_enqueue_policy.2.2.2.1 ["a", "b", "c"] ["a", "b", "c"]
      [7] [] (by decide) (7, ["a", "b", "c", ""]) ?_
    decide

/-! ### Path-discovery result method (C2) -/

/-- C2 (amended): the `method` field of every `find_multihop_relationships`
result is one of the strings actually written by the code —
`'direct_subgraph'`, `'bridge_nodes'`, `'no_connection'` — and when entity B
is indexed in A's sampled subgraph the result has `found = true` and
`method = 'direct_subgraph'`. -/
theorem findMultihop_method_enum (adapter : Adapter)
    (entityA entityB : String) (maxHops : Nat) :
    ((findMultihopRelationships adapter entityA entityB maxHops).method =
        "direct_subgraph" ∨
      (findMultihopRelationships adapter entityA entityB maxHops).method =
        "bridge_nodes" ∨
      (findMultihopRelationships adapter entityA entityB maxHops).method =
        "no_connection") ∧
    ((alookup (sampleSubgraph adapter entityA maxHops true 500).vidToIdx
        entityB).isSome = true →
      (findMultihopRelationships adapter entityA entityB maxHops).found =
        true ∧
      (findMultihopRelationships adapter entityA entityB maxHops).method =
        "direct_subgraph") := by
  constructor
  · rw [findMultihopRelationships]
    by_cases h1 : (alookup (sampleSubgraph adapter entityA maxHops true
        500).vidToIdx entityB).isSome = true
    · rw [if_pos h1]
      simp
    · rw [if_neg h1]
      by_cases h2 : (((sampleSubgraph adapter entityA maxHops true
          500).vidToIdx.map (·.1)).filter
            (· ∈ (sampleSubgraph adapter entityB (maxHops / 2) true
              500).vidToIdx.map (·.1))).isEmpty = true
      · rw [if_pos h2]
        simp
      · rw [if_neg h2]
        simp
  · intro h
    rw [findMultihopRelationships, if_pos h]
    exact ⟨rfl, rfl⟩

/-- The spec's 8-vertex bridge-scenario mock: edges `player0 <-> team2`,
`player0 -> player1`, `player1 <-> team0`, served through one `GET SUBGRAPH`
response (the `max_hops = 3` call uses the bulk strategy). -/
def mockBridgeAdapter : Adapter :=
  { vertexType := fun _ => none,
    hopRows := fun _ _ => some [],
    bulkRows := fun center hops =>
      if center = "player0" ∧ hops = 3 then
        some [(none, some ("player0", "team2", "serve")),
              (none, some ("team2", "player0", "serve")),
              (none, some ("player0", "player1", "follow")),
              (none, some ("player1", "team0", "serve")),
              (none, some ("team0", "player1", "serve"))]
      else none,
    fetchProps := fun _ _ => none }

/-- Witness for C2 (amended) on the 8-vertex mock scenario: entity B is
indexed in A's sampled subgraph, so the direct branch fires. -/
theorem findMultihop_method_enum_witness :
    (findMultihopRelationships mockBridgeAdapter "player0" "team0"
      3).found = true ∧
    (findMultihopRelationships mockBridgeAdapter "player0" "team0"
      3).method = "direct_subgraph" :=
  (findMultihop_method_enum mockBridgeAdapter "player0" "team0" 3).2
    (by decide)

/-- Counterexample to C2 as stated: in the spec's own mock scenario the
result's `method` is the string `'direct_subgraph'`, not `'direct'`, and is
none of `'direct'`, `'bridge'`, `'none'`. -/
theorem findMultihop_method_counterexample :
    (findMultihopRelationships mockBridgeAdapter "player0" "team0"
      3).found = true ∧
    (findMultihopRelationships mockBridgeAdapter "player0" "team0"
      3).method = "direct_subgraph" ∧
    ¬((findMultihopRelationships mockBridgeAdapter "player0" "team0"
        3).method = "direct" ∨
      (findMultihopRelationships mockBridgeAdapter "player0" "team0"
        3).method = "bridge" ∨
      (findMultihopRelationships mockBridgeAdapter "player0" "team0"
        3).method = "none") := by
  have h : (alookup (sampleSubgraph mockBridgeAdapter "player0" 3 true
      500).vidToIdx "team0").isSome = true := by decide
  rw [findMultihopRelationships, if_pos h]
  refine ⟨rfl, rfl, ?_⟩
  rintro (hc | hc | hc) <;> exact absurd hc (by decide)

end NebulaSiwi
